import Mathlib

/-!
# Verification of the stream-to-video-file recording dispatcher

A shallow embedding, in Lean 4, of `src/app/main.py` from the
`stream-to-video-file` repository, together with proofs about its behaviour.

The script is built on Python 3.11's `urllib.parse`; the parts of that library
the script reaches (`urlparse`, `urlunparse`, `urlencode`, `parse_qs`, the
`hostname`/`port` properties, and their helpers, including the bracketed-host
validation from `ipaddress`) are transcribed here over `List Char`, which
models a Python `str` as its sequence of Unicode code points.

Two deliberate abstractions, both exact on ASCII data:
* `str.lower` is modelled as ASCII lowercasing (Python additionally maps
  non-ASCII cased letters);
* in `_checknetloc`, the NFKC normalization used to reject certain exotic
  non-ASCII authorities is modelled as the identity, so the check always
  passes (it always passes for ASCII authorities in Python as well).

Effectful parts of the script (the thread pool, `subprocess.run`, the file
system, the message bus) are modelled by explicit data: an oracle describing
the outcome of the external `ffmpeg` invocation and of the file reads, and
result values that record the list of jobs enqueued and the list of upload
requests sent.
-/

namespace StreamRec

/-- A Python exception as observed by the script: everything the reached code
raises is a `ValueError` (from `urllib.parse` / explicit raises), an
`OSError`-family launch failure, a `CalledProcessError`, or a
`FileNotFoundError` from `open`. -/
inductive PyErr where
  | valueError (msg : String)
  | calledProcessError (msg : String)
  | osError (msg : String)
  | fileNotFoundError (msg : String)
  deriving Repr, DecidableEq

/-! ## Python string primitives over `List Char` -/

/-- Split at the first occurrence of `c`: `some (before, after)` with
`l = before ++ c :: after` and `c ∉ before`, or `none` when `c ∉ l`.
Models Python `s.split(c, 1)` / `s.find(c)` with slicing. -/
def splitFirst (c : Char) : List Char → Option (List Char × List Char)
  | [] => none
  | x :: xs =>
    if x = c then some ([], xs)
    else (splitFirst c xs).map (fun p => (x :: p.1, p.2))

/-- Python `s.split(c)` (split on every occurrence; `"".split(c) = [""]`). -/
def splitAll (c : Char) (l : List Char) : List (List Char) :=
  l.foldr
    (fun x acc =>
      if x = c then [] :: acc
      else match acc with
        | h :: t => (x :: h) :: t
        | [] => [[x]])
    [[]]

/-- Python `s.partition(c)`: split at the first occurrence of `c`; the `Bool`
records whether the separator was found (`(s, False, '')` when not). -/
def partitionC (c : Char) (l : List Char) : List Char × Bool × List Char :=
  match splitFirst c l with
  | some (a, b) => (a, true, b)
  | none => (l, false, [])

/-- Python `s.rpartition(c)`: split at the last occurrence of `c`;
`('', False, s)` when `c ∉ s`. -/
def rpartitionC (c : Char) (l : List Char) : List Char × Bool × List Char :=
  match splitFirst c l.reverse with
  | some (a, b) => (b.reverse, true, a.reverse)
  | none => ([], false, l)

/-- ASCII lowercasing of one character (`chr(ord(c)+32)` for `'A'`–`'Z'`). -/
def pyLowerChar (c : Char) : Char :=
  if 65 ≤ c.toNat ∧ c.toNat ≤ 90 then Char.ofNat (c.toNat + 32) else c

/-- ASCII lowercasing; models Python `str.lower()` on the ASCII data this
script handles (Python also lowercases non-ASCII cased letters). -/
def pyLower (l : List Char) : List Char := l.map pyLowerChar

/-- Decimal digit characters `'0'`–`'9'` to their value. -/
def digitVal (c : Char) : Nat := c.toNat - '0'.toNat

/-- Value of a string of decimal digits (Python `int(s, 10)` on digit-only
input, as guarded by `isdigit()` checks at every call site). -/
def digitsToNat (l : List Char) : Nat :=
  l.foldl (fun acc c => acc * 10 + digitVal c) 0

/-- Decimal representation of a natural number; models Python `str(n)` /
`f-string` formatting of the nonnegative ints this script prints. -/
def natRepr (n : Nat) : List Char :=
  if _h : n < 10 then [Char.ofNat ('0'.toNat + n)]
  else natRepr (n / 10) ++ [Char.ofNat ('0'.toNat + n % 10)]
  decreasing_by exact Nat.div_lt_self (by omega) (by omega)

/-- The three characters `urlsplit` removes from the URL
(`_UNSAFE_URL_BYTES_TO_REMOVE`). -/
def isUnsafeUrlChar (c : Char) : Bool := c = '\t' ∨ c = '\r' ∨ c = '\n'

/-- `url.replace('\t','').replace('\r','').replace('\n','')`. -/
def removeUnsafe (l : List Char) : List Char := l.filter (fun c => !isUnsafeUrlChar c)

/-- `url.lstrip(_WHATWG_C0_CONTROL_OR_SPACE)`: strip leading code points
`U+0000`–`U+0020`. -/
def lstripC0 (l : List Char) : List Char := l.dropWhile (fun c => c.toNat ≤ 0x20)

/-! ## UTF-8 (Python `str.encode('utf-8')` and `bytes.decode('utf-8','replace')`) -/

/-- UTF-8 encoding of one code point (Lean `Char` carries exactly the Unicode
scalar values, so the strict encoder is total, as it is in Python on the
strings this script builds). -/
def utf8EncodeChar (c : Char) : List Nat :=
  let n := c.toNat
  if n < 0x80 then [n]
  else if n < 0x800 then [0xc0 + n / 64, 0x80 + n % 64]
  else if n < 0x10000 then [0xe0 + n / 4096, 0x80 + n / 64 % 64, 0x80 + n % 64]
  else [0xf0 + n / 0x40000, 0x80 + n / 4096 % 64, 0x80 + n / 64 % 64, 0x80 + n % 64]

/-- `s.encode('utf-8')` as a byte list. -/
def utf8Encode (l : List Char) : List Nat := (l.map utf8EncodeChar).flatten

/-- Is `b` a UTF-8 continuation byte (`0x80`–`0xBF`)? -/
def isCont (b : Nat) : Bool := 0x80 ≤ b ∧ b ≤ 0xbf

/-- The replacement character `U+FFFD`. -/
def fffd : Char := Char.ofNat 0xFFFD

/-- `bytes.decode('utf-8', 'replace')`: CPython replaces each maximal subpart
of an ill-formed subsequence by one `U+FFFD` and resumes at the offending
byte (checked against CPython 3.11 on truncated, overlong, surrogate and
out-of-range inputs). -/
def utf8DecodeReplace (l : List Nat) : List Char :=
  match l with
  | [] => []
  | b :: rest =>
    if b < 0x80 then Char.ofNat b :: utf8DecodeReplace rest
    else if b < 0xc2 then fffd :: utf8DecodeReplace rest
    else if b ≤ 0xdf then
      match _h2 : rest with
      | [] => [fffd]
      | b2 :: r2 =>
        if isCont b2 then
          Char.ofNat ((b - 0xc0) * 64 + (b2 - 0x80)) :: utf8DecodeReplace r2
        else fffd :: utf8DecodeReplace (b2 :: r2)
    else if b ≤ 0xef then
      -- second-byte range depends on the lead byte (excludes overlong forms
      -- for 0xE0 ∧ surrogates for 0xED)
      match _h2 : rest with
      | [] => [fffd]
      | b2 :: r2 =>
        if (if b = 0xe0 then 0xa0 else 0x80) ≤ b2 ∧ b2 ≤ (if b = 0xed then 0x9f else 0xbf) then
          match _h3 : r2 with
          | [] => [fffd]
          | b3 :: r3 =>
            if isCont b3 then
              Char.ofNat ((b - 0xe0) * 4096 + (b2 - 0x80) * 64 + (b3 - 0x80)) ::
                utf8DecodeReplace r3
            else fffd :: utf8DecodeReplace (b3 :: r3)
        else fffd :: utf8DecodeReplace (b2 :: r2)
    else if b ≤ 0xf4 then
      match _h2 : rest with
      | [] => [fffd]
      | b2 :: r2 =>
        if (if b = 0xf0 then 0x90 else 0x80) ≤ b2 ∧ b2 ≤ (if b = 0xf4 then 0x8f else 0xbf) then
          match _h3 : r2 with
          | [] => [fffd]
          | b3 :: r3 =>
            if isCont b3 then
              match _h4 : r3 with
              | [] => [fffd]
              | b4 :: r4 =>
                if isCont b4 then
                  Char.ofNat ((b - 0xf0) * 0x40000 + (b2 - 0x80) * 4096 +
                      (b3 - 0x80) * 64 + (b4 - 0x80)) :: utf8DecodeReplace r4
                else fffd :: utf8DecodeReplace (b4 :: r4)
            else fffd :: utf8DecodeReplace (b3 :: r3)
        else fffd :: utf8DecodeReplace (b2 :: r2)
    else fffd :: utf8DecodeReplace rest
  termination_by l.length
  decreasing_by all_goals (subst_vars; simp only [List.length_cons]; omega)

/-! ## `quote` / `quote_plus` / `urlencode` -/

/-- `_ALWAYS_SAFE`: ASCII letters, digits, and `'_'`, `'.'`, `'-'`, `'~'`. -/
def alwaysSafe (b : Nat) : Bool :=
  (0x41 ≤ b ∧ b ≤ 0x5a) ∨ (0x61 ≤ b ∧ b ≤ 0x7a) ∨ (0x30 ≤ b ∧ b ≤ 0x39) ∨
    b = '_'.toNat ∨ b = '.'.toNat ∨ b = '-'.toNat ∨ b = '~'.toNat

/-- Upper-case hex digit of `n < 16` (the `'%02X'` format of `_Quoter`). -/
def hexDigitUpper (n : Nat) : Char :=
  if n < 10 then Char.ofNat ('0'.toNat + n) else Char.ofNat ('A'.toNat + n - 10)

/-- `_Quoter.__missing__`: a byte maps to itself when in the safe set, else to
`%XX`. -/
def quoteByte (safe : List Nat) (b : Nat) : List Char :=
  if alwaysSafe b ∨ b ∈ safe then [Char.ofNat b]
  else ['%', hexDigitUpper (b / 16), hexDigitUpper (b % 16)]

/-- `quote(s, safe)` on a `str`: UTF-8 encode, then quote byte by byte. -/
def quote (safe : List Nat) (l : List Char) : List Char :=
  ((utf8Encode l).map (quoteByte safe)).flatten

/-- `quote_plus(s)` with the default empty `safe` set, as called by
`urlencode`: when the string contains a space, quote with space kept safe and
then turn the spaces into `'+'`. -/
def quote_plus (l : List Char) : List Char :=
  if ' ' ∉ l then quote [] l
  else (quote [' '.toNat] l).map (fun c => if c = ' ' then '+' else c)

/-- `urlencode(query)` over an association list in iteration order (the
script passes a protobuf string map; this embedding fixes the order the
mapping presents its items in as the list order). -/
def urlencode (q : List (List Char × List Char)) : List Char :=
  (List.intersperse ['&'] (q.map (fun kv => quote_plus kv.1 ++ '=' :: quote_plus kv.2))).flatten

/-! ## `unquote` and `parse_qs` -/

/-- Is `c` a pair of hex digit characters' first component, per `_hexdig`. -/
def isHexDigitChar (c : Char) : Bool :=
  ('0' ≤ c ∧ c ≤ '9') ∨ ('a' ≤ c ∧ c ≤ 'f') ∨ ('A' ≤ c ∧ c ≤ 'F')

/-- Hex digit character to its value. -/
def hexVal (c : Char) : Nat :=
  if c ≤ '9' then c.toNat - '0'.toNat
  else if c ≤ 'F' then c.toNat - 'A'.toNat + 10
  else c.toNat - 'a'.toNat + 10

/-- `unquote_to_bytes` on an ASCII chunk: split on `'%'`; after each `'%'`,
a leading hex pair becomes a byte, otherwise the `'%'` is kept literally. -/
def unquoteToBytes (l : List Char) : List Nat :=
  match splitAll '%' l with
  | [] => []
  | first :: bits =>
    first.map Char.toNat ++
      (bits.map (fun item =>
        match item with
        | h1 :: h2 :: rest =>
          if isHexDigitChar h1 ∧ isHexDigitChar h2 then
            (hexVal h1 * 16 + hexVal h2) :: rest.map Char.toNat
          else '%'.toNat :: item.map Char.toNat
        | _ => '%'.toNat :: item.map Char.toNat)).flatten

/-- One step of `unquote`: maximal ASCII runs are percent-decoded and UTF-8
decoded with replacement; maximal non-ASCII runs pass through verbatim
(`_asciire.split`). -/
def unquoteRuns (l : List Char) : List Char :=
  match l with
  | [] => []
  | c :: rest =>
    if h : c.toNat ≤ 0x7f then
      utf8DecodeReplace (unquoteToBytes ((c :: rest).takeWhile (fun c => c.toNat ≤ 0x7f))) ++
        unquoteRuns ((c :: rest).dropWhile (fun c => c.toNat ≤ 0x7f))
    else
      (c :: rest).takeWhile (fun c => 0x7f < c.toNat) ++
        unquoteRuns ((c :: rest).dropWhile (fun c => 0x7f < c.toNat))
  termination_by l.length
  decreasing_by
  · simp only [List.dropWhile_cons]
    rw [if_pos (by simpa using h)]
    exact Nat.lt_succ_of_le (List.dropWhile_suffix _).length_le
  · simp only [List.dropWhile_cons]
    rw [if_pos (by simp at h ⊢; omega)]
    exact Nat.lt_succ_of_le (List.dropWhile_suffix _).length_le

/-- `unquote(s)` with defaults (`utf-8`, `replace`). -/
def unquote (l : List Char) : List Char :=
  if '%' ∉ l then l else unquoteRuns l

/-- `parse_qsl(qs)` with defaults: split on `'&'`, drop empty chunks and
chunks without `'='` or with an empty value, replace `'+'` by space and
percent-decode names and values. -/
def parse_qsl (qs : List Char) : List (List Char × List Char) :=
  let query_args := if qs = [] then [] else splitAll '&' qs
  (query_args.map (fun nv =>
    match splitFirst '=' nv with
    | none => []
    | some (n, v) =>
      if v ≠ [] then
        [(unquote (n.map (fun c => if c = '+' then ' ' else c)),
          unquote (v.map (fun c => if c = '+' then ' ' else c)))]
      else [])).flatten

/-- `parse_qs(qs).get(key, [None])[0]`: the first value listed for `key`
(`parse_qs` groups `parse_qsl`'s pairs by key in order, so the head of the
group is the first pair with that key). -/
def firstQueryValue (qs : List Char) (key : List Char) : Option (List Char) :=
  ((parse_qsl qs).find? (fun kv => kv.1 = key)).map (·.2)

/-! ## `ipaddress` validation used by `_check_bracketed_host` -/

/-- One dotted-decimal octet per `ipaddress._parse_octet`: 1–3 ASCII digits,
no leading zero (except `"0"` itself), value at most 255. -/
def isIPv4Octet (o : List Char) : Bool :=
  o ≠ [] ∧ o.all Char.isDigit ∧ o.length ≤ 3 ∧ (o = ['0'] ∨ o.headD ' ' ≠ '0') ∧
    digitsToNat o ≤ 255

/-- `IPv4Address(s)` validity: no `'/'`, nonempty, exactly four valid octets. -/
def isIPv4 (s : List Char) : Bool :=
  '/' ∉ s ∧ s ≠ [] ∧
    (let octs := splitAll '.' s
     octs.length = 4 ∧ octs.all isIPv4Octet)

/-- One IPv6 hextet per `ipaddress._parse_hextet`: 1–4 hex digits (the empty
string fails Python's `int('', 16)`). -/
def isHextet (p : List Char) : Bool := p ≠ [] ∧ p.all isHexDigitChar ∧ p.length ≤ 4

/-- The `'::'` scan of `_BaseV6._ip_int_from_string`: `none` when two interior
empty parts occur (more than one `'::'`), otherwise the unique interior empty
index, if any. -/
def findSkipIndex (parts : List (List Char)) : Option (Option Nat) :=
  match (List.range parts.length).filter
      (fun i => 0 < i ∧ i + 1 < parts.length ∧ parts.getD i ['x'] = []) with
  | [] => some none
  | [i] => some (some i)
  | _ => none

/-- `_BaseV6._ip_int_from_string` as a validity predicate, after the embedded
IPv4 suffix (if any) has been replaced by two dummy hextets. -/
def ipv6PartsOk (parts : List (List Char)) : Bool :=
  decide (parts.length ≤ 9) &&
    (match findSkipIndex parts with
     | none => false
     | some (some i) =>
       let headEmpty := parts.headD ['x'] == []
       let lastEmpty := parts.getLastD ['x'] == []
       let hi := if headEmpty then i - 1 else i
       let lo0 := parts.length - i - 1
       let lo := if lastEmpty then lo0 - 1 else lo0
       (!headEmpty || decide (i = 1)) && (!lastEmpty || decide (lo0 = 1)) &&
         decide (hi + lo ≤ 7) &&
         (List.range hi).all (fun j => isHextet (parts.getD j [])) &&
         (List.range lo).all (fun j => isHextet (parts.getD (parts.length - lo + j) []))
     | some none =>
       decide (parts.length = 8) && !(parts.headD [] == []) && !(parts.getLastD [] == []) &&
         parts.all isHextet)

/-- `IPv6Address` address-body validity (scope id split off beforehand). -/
def isIPv6Core (s : List Char) : Bool :=
  s ≠ [] ∧
    (let parts0 := splitAll ':' s
     3 ≤ parts0.length ∧
       (if '.' ∈ parts0.getLastD [] then
          isIPv4 (parts0.getLastD []) ∧ ipv6PartsOk (parts0.dropLast ++ [['0'], ['0']])
        else ipv6PartsOk parts0))

/-- `IPv6Address(s)` validity including an optional nonempty `%scope`
(`_split_scope_id`) and the `'/'` rejection of the constructor. -/
def isIPv6WithScope (s : List Char) : Bool :=
  !s.contains '/' &&
    (match partitionC '%' s with
     | (addr, false, _) => isIPv6Core addr
     | (addr, true, scope) => !(scope == []) && !scope.contains '%' && isIPv6Core addr)

/-- The `IPvFuture` shape `v<hex>+.<anything nonempty without newline>`
(the regex in `_check_bracketed_host`). -/
def isIPvFuture (s : List Char) : Bool :=
  match s with
  | 'v' :: t =>
    let hex := t.takeWhile isHexDigitChar
    let rest := t.dropWhile isHexDigitChar
    hex ≠ [] ∧ rest.headD ' ' = '.' ∧ rest.tail ≠ [] ∧ '\n' ∉ rest.tail
  | _ => false

/-- `urllib.parse._check_bracketed_host`: a bracketed host must be an
IPvFuture literal (when it starts with `'v'`) or a valid IPv6 address;
a bracketed IPv4 address is rejected. -/
def check_bracketed_host (h : List Char) : Except PyErr Unit :=
  if h.headD ' ' = 'v' then
    if isIPvFuture h then .ok ()
    else .error (.valueError "IPvFuture address is invalid")
  else if isIPv4 h then .error (.valueError "An IPv4 address cannot be in brackets")
  else if isIPv6WithScope h then .ok ()
  else .error (.valueError "does not appear to be an IPv4 or IPv6 address")

/-! ## `urlsplit` / `urlparse` / `urlunsplit` / `urlunparse` -/

/-- Characters allowed in a scheme name (`scheme_chars`). -/
def isSchemeChar (c : Char) : Bool := c.isAlpha ∨ c.isDigit ∨ c = '+' ∨ c = '-' ∨ c = '.'

/-- The `uses_params` scheme list of `urllib.parse` (Python 3.11). -/
def uses_params : List (List Char) :=
  (["", "ftp", "hdl", "prospero", "http", "imap", "https", "shttp", "rtsp",
    "rtsps", "rtspu", "sip", "sips", "mms", "sftp", "tel"].map String.data)

/-- The `uses_netloc` scheme list of `urllib.parse` (Python 3.11). -/
def uses_netloc : List (List Char) :=
  (["", "ftp", "http", "gopher", "nntp", "telnet", "imap", "wais", "file",
    "mms", "https", "shttp", "snews", "prospero", "rtsp", "rtsps", "rtspu",
    "rsync", "svn", "svn+ssh", "sftp", "nfs", "git", "git+ssh", "ws",
    "wss"].map String.data)

/-- The five components returned by `urlsplit`. -/
structure SplitResult where
  scheme : List Char
  netloc : List Char
  path : List Char
  query : List Char
  fragment : List Char
  deriving Repr, DecidableEq

/-- The six components returned by `urlparse`. -/
structure ParseResult where
  scheme : List Char
  netloc : List Char
  path : List Char
  params : List Char
  query : List Char
  fragment : List Char
  deriving Repr, DecidableEq

/-- The body of `urlsplit` below the scheme extraction: netloc extraction
with its bracket checks, then the fragment and query splits. -/
def urlsplitRest (scheme url2 : List Char) : Except PyErr SplitResult := do
  let (netloc, url3) ←
    if url2.take 2 = ['/', '/'] then do
      let rest := url2.drop 2
      let netloc := rest.takeWhile (fun c => c ≠ '/' ∧ c ≠ '?' ∧ c ≠ '#')
      let url3 := rest.dropWhile (fun c => c ≠ '/' ∧ c ≠ '?' ∧ c ≠ '#')
      if ('[' ∈ netloc ∧ ']' ∉ netloc) ∨ (']' ∈ netloc ∧ '[' ∉ netloc) then
        throw (.valueError "Invalid IPv6 URL")
      else if '[' ∈ netloc ∧ ']' ∈ netloc then do
        check_bracketed_host (partitionC ']' (partitionC '[' netloc).2.2).1
        pure (netloc, url3)
      else pure (netloc, url3)
    else pure ([], url2)
  let (url4, fragment) :=
    match splitFirst '#' url3 with
    | some (a, b) => (a, b)
    | none => (url3, [])
  let (url5, query) :=
    match splitFirst '?' url4 with
    | some (a, b) => (a, b)
    | none => (url4, [])
  return ⟨scheme, netloc, url5, query, fragment⟩

/-- `urlsplit(url)` (Python 3.11, `allow_fragments=True`, default scheme).
`_checknetloc` is modelled as always passing: it passes for every ASCII
netloc, and its NFKC normalization of non-ASCII netlocs is modelled as the
identity (see the header). -/
def urlsplit (url0 : List Char) : Except PyErr SplitResult :=
  let url1 := removeUnsafe (lstripC0 url0)
  let (scheme, url2) :=
    match splitFirst ':' url1 with
    | some (c0 :: pre, after) =>
      if c0.isAlpha ∧ (c0 :: pre).all isSchemeChar then (pyLower (c0 :: pre), after)
      else (([] : List Char), url1)
    | _ => ([], url1)
  urlsplitRest scheme url2

/-- `_splitparams(url)`: split `;params` off the last path segment. -/
def splitparams (url : List Char) : List Char × List Char :=
  if '/' ∈ url then
    match rpartitionC '/' url with
    | (before, _, after) =>
      match splitFirst ';' after with
      | some (a1, a2) => (before ++ '/' :: a1, a2)
      | none => (url, [])
  else
    match splitFirst ';' url with
    | some (a, b) => (a, b)
    | none => (url, [])

/-- `urlparse(url)`: `urlsplit` plus params splitting for schemes in
`uses_params`. -/
def urlparse (url : List Char) : Except PyErr ParseResult := do
  let s ← urlsplit url
  if s.scheme ∈ uses_params ∧ ';' ∈ s.path then
    let (p, prms) := splitparams s.path
    return ⟨s.scheme, s.netloc, p, prms, s.query, s.fragment⟩
  else
    return ⟨s.scheme, s.netloc, s.path, [], s.query, s.fragment⟩

/-- `urlunsplit` (Python 3.11: the `'//'` is emitted when the netloc is
nonempty, or when the scheme is in `uses_netloc` and the path does not
already start with `'//'`). -/
def urlunsplit (scheme netloc url query fragment : List Char) : List Char :=
  let url :=
    if netloc ≠ [] ∨ (scheme ≠ [] ∧ scheme ∈ uses_netloc ∧ url.take 2 ≠ ['/', '/']) then
      '/' :: '/' :: (netloc ++ (if url ≠ [] ∧ url.headD ' ' ≠ '/' then '/' :: url else url))
    else url
  let url := if scheme ≠ [] then scheme ++ ':' :: url else url
  let url := if query ≠ [] then url ++ '?' :: query else url
  if fragment ≠ [] then url ++ '#' :: fragment else url

/-- `urlunparse`: re-join `path;params`, then `urlunsplit`. -/
def urlunparse (r : ParseResult) : List Char :=
  urlunsplit r.scheme r.netloc
    (if r.params ≠ [] then r.path ++ ';' :: r.params else r.path) r.query r.fragment

/-! ## The `hostname` and `port` properties of parse results -/

/-- `_NetlocResultMixinStr._hostinfo`: raw host part (no lowercasing) and the
optional port text of a netloc. -/
def hostinfo (netloc : List Char) : List Char × Option (List Char) :=
  let hi := (rpartitionC '@' netloc).2.2
  let (hn, prt) :=
    match partitionC '[' hi with
    | (_, true, bracketed) =>
      let (hn, _, after) := partitionC ']' bracketed
      (hn, (partitionC ':' after).2.2)
    | (_, false, _) =>
      let (hn, _, p) := partitionC ':' hi
      (hn, p)
  (hn, if prt = [] then none else some prt)

/-- The `hostname` property: `None` for an empty host, otherwise the host
lowercased up to an IPv6 `%zone` suffix, which keeps its case. -/
def hostnameOf (netloc : List Char) : Option (List Char) :=
  let hn := (hostinfo netloc).1
  if hn = [] then none
  else
    let (h, found, zone) := partitionC '%' hn
    some (pyLower h ++ (if found then '%' :: zone else []))

/-- The `port` property: `None` when absent; a `ValueError` when the port
text is not all ASCII digits or exceeds 65535. -/
def portOf (netloc : List Char) : Except PyErr (Option Nat) :=
  match (hostinfo netloc).2 with
  | none => .ok none
  | some p =>
    if p ≠ [] ∧ p.all Char.isDigit then
      if digitsToNat p ≤ 65535 then .ok (some (digitsToNat p))
      else .error (.valueError "Port out of range 0-65535")
    else .error (.valueError "Port could not be cast to integer value")

/-! ## The script's own pure functions (`src/app/main.py`) -/

/-- `url.replace("&amp;", "&")`: Python replaces non-overlapping occurrences
left to right. -/
def replaceAmp : List Char → List Char
  | '&' :: 'a' :: 'm' :: 'p' :: ';' :: rest => '&' :: replaceAmp rest
  | c :: rest => c :: replaceAmp rest
  | [] => []

/-- `transform_url(url)`: `{track}/{starttime}_{endtime}.mkv` from the
fourth slash-separated part of the path and the two query parameters. -/
def transform_url (url : String) : Except PyErr String := do
  let parsed ← urlparse (replaceAmp url.data)
  let path_parts := splitAll '/' parsed.path
  if path_parts.length < 4 then
    throw (.valueError "Invalid URL structure; cannot find track ID.")
  else
    let track := path_parts.getD 3 []
    let starttime := firstQueryValue parsed.query "starttime".data
    let endtime := firstQueryValue parsed.query "endtime".data
    if starttime.getD [] = [] ∨ endtime.getD [] = [] then
      throw (.valueError "Missing starttime or endtime in URL.")
    else
      return ⟨track ++ '/' :: starttime.getD [] ++ '_' :: endtime.getD [] ++ ".mkv".data⟩

/-- `insert_credentials(url, username, password)`: replace the netloc by
`username:password@hostname[:port]`. A missing hostname is interpolated by
the f-string as the literal text `None`; evaluating `parsed.port` may raise. -/
def insert_credentials (url username password : String) : Except PyErr String := do
  let parsed ← urlparse url.data
  let host :=
    match hostnameOf parsed.netloc with
    | some h => h
    | none => "None".data
  let netloc0 := username.data ++ ':' :: password.data ++ '@' :: host
  let prt ← portOf parsed.netloc
  let netloc :=
    match prt with
    | some p => if p ≠ 0 then netloc0 ++ ':' :: natRepr p else netloc0
    | none => netloc0
  return ⟨urlunparse { parsed with netloc := netloc }⟩

/-- The `Endpoint` message of an `RTSPRequest`: its protobuf fields, with the
string-to-string query-parameter map taken in the order the mapping presents
its items. A proto3 scalar `port` is absent exactly when it is `0`. -/
structure Endpoint where
  protocol : String
  host : String
  port : Nat
  path : String
  query_params : List (String × String)
  deriving Repr, DecidableEq

/-- The `path` local of `build_url`: a leading slash is prepended when
missing (`if not path.startswith("/")`). -/
def buildPath (e : Endpoint) : List Char :=
  if e.path.data.headD ' ' = '/' then e.path.data else '/' :: e.path.data

/-- The `query` local of `build_url`: `urlencode(endpoint.query_params)` for
a nonempty mapping, else the empty string. -/
def buildQuery (e : Endpoint) : List Char :=
  if e.query_params ≠ [] then
    urlencode (e.query_params.map (fun kv => (kv.1.data, kv.2.data)))
  else []

/-- The `netloc` local of `build_url`: `f"{host}:{port}" if port else host`. -/
def buildNetloc (e : Endpoint) : List Char :=
  if e.port ≠ 0 then e.host.data ++ ':' :: natRepr e.port else e.host.data

/-- `build_url(endpoint)`: normalize the path to a leading slash, encode the
query parameters (empty mapping gives no query), join `host:port` (port `0`
or absent gives the bare host), and `urlunparse` the pieces. -/
def build_url (e : Endpoint) : String :=
  ⟨urlunparse ⟨e.protocol.data, buildNetloc e, buildPath e, [], buildQuery e, []⟩⟩

/-! ## The dispatcher (`callback`) and the worker (`ffmpeg_thread`) -/

/-- The `basic_auth` / `digest_auth` optional fields of `RTSPRequest`
(`HasField` checks in `callback`). -/
inductive Auth where
  | noAuth
  | basic (username password : String)
  | digest (username password : String)
  deriving Repr, DecidableEq

/-- An inbound `RTSPRequest`: endpoint, optional credentials, and the
correlation metadata of its header, modelled as an opaque entity path. -/
structure RTSPRequest where
  endpoint : Endpoint
  auth : Auth
  entityPath : List String
  deriving Repr, DecidableEq

/-- The `Bool` acknowledgment message: correlation header plus success flag. -/
structure BoolMsg where
  header : List String
  value : Bool
  deriving Repr, DecidableEq

/-- Modelled from the spec: `make87.header_from_message(Header, message=m,
append_entity_path=tag)` derives the reply's correlation metadata from the
request's by appending a tag. The `make87` messaging library is not part of
this repository; the spec describes correlation metadata as "an opaque
identifier/trace path supplied by the caller, propagated to derived
messages" and "extended with an upload path/tag". -/
def headerFrom (message : RTSPRequest) (tag : String) : List String :=
  message.entityPath ++ [tag]

/-- One job enqueued into the thread pool: the captured arguments of
`executor.submit(ffmpeg_thread, url, output_file, message, endpoint)`. -/
structure Job where
  url : String
  output_file : String
  message : RTSPRequest
  deriving Repr, DecidableEq

/-- The `callback` of `main`. `fresh` stands for the `uuid.uuid4()` token of
this invocation (randomness supplied from outside the model). The first
component lists the jobs submitted to the pool before the callback returned
or raised; the second is its result — the acknowledgment, or the exception
that escapes it (there is no handler in `callback`). -/
def callback (fresh : String) (message : RTSPRequest) :
    List Job × Except PyErr BoolMsg :=
  let url := build_url message.endpoint
  let urlR : Except PyErr String :=
    match message.auth with
    | .noAuth => .ok url
    | .basic u p => insert_credentials url u p
    | .digest u p => insert_credentials url u p
  match urlR with
  | .error e => ([], .error e)
  | .ok url2 =>
    ([⟨url2, fresh ++ ".mkv", message⟩], .ok ⟨headerFrom message "success", true⟩)

/-- Outcome of one `subprocess.run(command, check=True)` invocation. -/
inductive RunOutcome where
  | success
  | nonzeroExit (msg : String)
  | launchFailure (msg : String)
  deriving Repr, DecidableEq

/-- Oracle for the effects inside one worker: the outcome of the external
process invocation, and the bytes a subsequent `open(output_file, "rb")`
would yield (`none` when no file was produced). The best-effort `os.remove`
(its `FileNotFoundError` is swallowed by the script) needs no oracle. -/
structure World where
  run : RunOutcome
  fileBytes : Option (List Nat)
  deriving Repr, DecidableEq

/-- The `RelativePathFile` upload message sent to the `FILE_UPLOAD`
requester: header, optional payload (`data=None` after a recording failure),
and reported path. -/
structure RelativePathFile where
  header : List String
  data : Option (List Nat)
  path : String
  deriving Repr, DecidableEq

/-- `ffmpeg_thread(url, output_file, message, file_release_endpoint)` run
against the oracle `w`: returns the upload requests issued and either normal
completion or the exception that escapes the worker. Only
`subprocess.CalledProcessError` (a non-zero exit) is caught by the script;
a launch failure (`OSError`/`FileNotFoundError` from `subprocess.run`), a
missing output file at `open`, and a `ValueError` from `transform_url`
all propagate. -/
def ffmpeg_thread (w : World) (url : String) (output_file : String)
    (message : RTSPRequest) : List RelativePathFile × Except PyErr Unit :=
  let fileBytesR : Except PyErr (Option (List Nat)) :=
    match w.run with
    | .launchFailure m => .error (.osError m)
    | .nonzeroExit _ => .ok none
    | .success =>
      match w.fileBytes with
      | some bs => .ok (some bs)
      | none => .error (.fileNotFoundError output_file)
  match fileBytesR with
  | .error e => ([], .error e)
  | .ok fb =>
    match transform_url url with
    | .error e => ([], .error e)
    | .ok pth => ([⟨headerFrom message "upload", fb, pth⟩], .ok ())

/-- One request handled end to end: the synchronous part (`callback`,
yielding jobs and the acknowledgment) followed by the enqueued jobs running
on the pool against the world oracle `w`. The acknowledgment is computed
before any job runs. -/
def submit_and_run (w : World) (fresh : String) (message : RTSPRequest) :
    (List Job × Except PyErr BoolMsg) × List RelativePathFile :=
  let r := callback fresh message
  (r, (r.1.map (fun j => (ffmpeg_thread w j.url j.output_file j.message).1)).flatten)

/-- The text appended for the port by `insert_credentials` (`if parsed.port:`
treats both an absent port and port `0` as falsy). -/
def portText : Option Nat → List Char
  | some p => if p ≠ 0 then ':' :: natRepr p else []
  | none => []

/-- The netloc `insert_credentials` constructs:
`username:password@host` plus the port text. -/
def credNetloc (username password : String) (host : List Char) (prt : Option Nat) : List Char :=
  username.data ++ ':' :: password.data ++ '@' :: (host ++ portText prt)

/-- Sample concrete inputs used by the verification instances below. -/
def sampleEndpoint : Endpoint := ⟨"rtsp", "cam", 0, "/a/b/c", []⟩

def sampleMsg : RTSPRequest := ⟨sampleEndpoint, Auth.noAuth, []⟩

def badPortMsg : RTSPRequest := ⟨⟨"rtsp", "h:x", 0, "/a", []⟩, Auth.basic "u" "p", []⟩

def goodUrl : String := "rtsp://cam/a/b/c?starttime=1&endtime=2"

/-! ## Well-formedness predicates used by the round-trip theorems -/

/-- Characters that may appear in an authority component without disturbing
a reparse: anything but the netloc delimiters `/?#`, brackets, and the
characters `urlsplit` strips. -/
def netlocSafeChar (c : Char) : Bool :=
  c ≠ '/' ∧ c ≠ '?' ∧ c ≠ '#' ∧ c ≠ '[' ∧ c ≠ ']' ∧ !isUnsafeUrlChar c

/-- Characters that may appear in a path component without disturbing a
reparse. -/
def pathSafeChar (c : Char) : Bool := c ≠ '?' ∧ c ≠ '#' ∧ !isUnsafeUrlChar c

/-- Characters that may appear in a query component without disturbing a
reparse. -/
def querySafeChar (c : Char) : Bool := c ≠ '#' ∧ !isUnsafeUrlChar c

/-- Characters of a host that survive credential insertion followed by a
credential-stripping reparse: netloc-safe and none of `@`, `:`, `%`. -/
def hostSafeChar (c : Char) : Bool := netlocSafeChar c ∧ c ≠ '@' ∧ c ≠ ':' ∧ c ≠ '%'

/-- A well-formed scheme as `urlsplit` recognizes one: nonempty, starting
with an ASCII letter, every character in `scheme_chars`. -/
def wfSchemeB (l : List Char) : Bool :=
  match l with
  | [] => false
  | c :: _ => c.isAlpha ∧ l.all isSchemeChar

/-! # Lemmas

## Characterizations of the string splitting primitives -/

theorem splitFirst_eq_none_iff {c : Char} {l : List Char} :
    splitFirst c l = none ↔ c ∉ l := by
  induction l with
  | nil => simp [splitFirst]
  | cons x xs ih =>
    by_cases hx : x = c
    · subst hx; simp [splitFirst]
    · simp [splitFirst, hx, Option.map_eq_none', ih, Ne.symm hx]

theorem splitFirst_eq_some_iff {c : Char} {l a b : List Char} :
    splitFirst c l = some (a, b) ↔ l = a ++ c :: b ∧ c ∉ a := by
  induction l generalizing a with
  | nil => simp [splitFirst]
  | cons x xs ih =>
    by_cases hx : x = c
    · subst hx
      simp only [splitFirst, if_pos rfl, Option.some.injEq, Prod.mk.injEq]
      constructor
      · rintro ⟨rfl, rfl⟩; simp
      · rintro ⟨heq, hmem⟩
        cases a with
        | nil => simpa using heq
        | cons y ys =>
          exfalso
          have hxy : x = y := by simpa using congrArg (fun t => t.headD ' ') heq
          exact hmem (by simp [hxy.symm])
    · simp only [splitFirst, if_neg hx]
      constructor
      · intro h
        rcases Option.map_eq_some'.mp h with ⟨⟨a', b'⟩, hsp, heq⟩
        obtain ⟨rfl, rfl⟩ : x :: a' = a ∧ b' = b := by
          simpa [Prod.ext_iff] using heq
        rcases ih.mp hsp with ⟨rfl, hmem⟩
        exact ⟨rfl, by simp [hmem, Ne.symm hx]⟩
      · rintro ⟨heq, hmem⟩
        cases a with
        | nil =>
          exfalso
          have : x = c := by simpa using congrArg (fun t => t.headD ' ') heq
          exact hx this
        | cons y ys =>
          have hy : x = y := by simpa using congrArg (fun t => t.headD ' ') heq
          subst hy
          have htl : xs = ys ++ c :: b := by simpa using congrArg List.tail heq
          have hm' : c ∉ ys := fun hc => hmem (by simp [hc])
          rw [ih.mpr ⟨htl, hm'⟩]
          rfl

theorem splitFirst_append {c : Char} {a b : List Char} (h : c ∉ a) :
    splitFirst c (a ++ c :: b) = some (a, b) :=
  splitFirst_eq_some_iff.mpr ⟨rfl, h⟩

theorem splitFirst_not_mem {c : Char} {l : List Char} (h : c ∉ l) :
    splitFirst c l = none :=
  splitFirst_eq_none_iff.mpr h

theorem rpartitionC_append {c : Char} {a b : List Char} (h : c ∉ b) :
    rpartitionC c (a ++ c :: b) = (a, true, b) := by
  unfold rpartitionC
  have hrev : (a ++ c :: b).reverse = b.reverse ++ c :: a.reverse := by simp
  rw [hrev, splitFirst_append (by simpa using h)]
  simp

theorem rpartitionC_not_mem {c : Char} {l : List Char} (h : c ∉ l) :
    rpartitionC c l = ([], false, l) := by
  unfold rpartitionC
  rw [splitFirst_not_mem (by simpa using h)]

theorem partitionC_append {c : Char} {a b : List Char} (h : c ∉ a) :
    partitionC c (a ++ c :: b) = (a, true, b) := by
  unfold partitionC
  rw [splitFirst_append h]

theorem partitionC_not_mem {c : Char} {l : List Char} (h : c ∉ l) :
    partitionC c l = (l, false, []) := by
  unfold partitionC
  rw [splitFirst_not_mem h]

theorem takeWhile_append_of_all {p : Char → Bool} {a b : List Char}
    (h : ∀ x ∈ a, p x = true) :
    List.takeWhile p (a ++ b) = a ++ List.takeWhile p b := by
  induction a with
  | nil => rfl
  | cons x xs ih =>
    simp only [List.cons_append, List.takeWhile_cons, h x (by simp), if_true]
    rw [ih (fun y hy => h y (by simp [hy]))]

theorem dropWhile_append_of_all {p : Char → Bool} {a b : List Char}
    (h : ∀ x ∈ a, p x = true) :
    List.dropWhile p (a ++ b) = List.dropWhile p b := by
  induction a with
  | nil => rfl
  | cons x xs ih =>
    simp only [List.cons_append, List.dropWhile_cons, h x (by simp), if_true]
    exact ih (fun y hy => h y (by simp [hy]))

theorem takeWhile_eq_nil_of_head {p : Char → Bool} {l : List Char}
    (h : l = [] ∨ p (l.headD ' ') = false) :
    List.takeWhile p l = [] := by
  cases l with
  | nil => rfl
  | cons x xs =>
    rcases h with h | h
    · cases h
    · simp only [List.headD_cons] at h
      simp [List.takeWhile_cons, h]

theorem dropWhile_eq_self_of_head {p : Char → Bool} {l : List Char}
    (h : l = [] ∨ p (l.headD ' ') = false) :
    List.dropWhile p l = l := by
  cases l with
  | nil => rfl
  | cons x xs =>
    rcases h with h | h
    · cases h
    · simp only [List.headD_cons] at h
      simp [List.dropWhile_cons, h]

theorem removeUnsafe_eq_self {l : List Char} (h : ∀ c ∈ l, isUnsafeUrlChar c = false) :
    removeUnsafe l = l :=
  List.filter_eq_self.mpr (fun c hc => by simp [h c hc])

theorem lstripC0_eq_self {l : List Char}
    (h : l = [] ∨ decide ((l.headD ' ').toNat ≤ 0x20) = false) :
    lstripC0 l = l :=
  dropWhile_eq_self_of_head h

/-! ## Character facts -/

theorem toNat_ofNat_lt {n : Nat} (h : n < 0xd800) : (Char.ofNat n).toNat = n := by
  have hv : n.isValidChar := Or.inl h
  simp [Char.ofNat, Char.toNat, Char.ofNatAux, hv]
  rfl

theorem char_eq_iff_toNat {c d : Char} : c = d ↔ c.toNat = d.toNat :=
  ⟨fun h => h ▸ rfl, fun h => Char.ext (UInt32.ext h)⟩

theorem pyLowerChar_spec (c : Char) :
    pyLowerChar c = c ∨
      (97 ≤ (pyLowerChar c).toNat ∧ (pyLowerChar c).toNat ≤ 122 ∧
        (pyLowerChar c).toNat = c.toNat + 32) := by
  unfold pyLowerChar
  split
  · next h => rw [toNat_ofNat_lt (by omega)]; right; omega
  · left; rfl

theorem char_ne_of_range {c d : Char} {lo hi : Nat}
    (h1 : lo ≤ c.toNat) (h2 : c.toNat ≤ hi) (hd : d.toNat < lo ∨ hi < d.toNat) :
    c ≠ d := by
  intro he
  rw [char_eq_iff_toNat] at he
  omega

theorem pyLowerChar_netlocSafe {c : Char} (h : netlocSafeChar c = true) :
    netlocSafeChar (pyLowerChar c) = true := by
  rcases pyLowerChar_spec c with heq | ⟨h1, h2, _⟩
  · rw [heq]; exact h
  · simp only [netlocSafeChar, isUnsafeUrlChar, Bool.and_eq_true, decide_eq_true_eq,
      Bool.not_eq_true', Bool.or_eq_false_iff, decide_eq_false_iff_not]
    refine ⟨char_ne_of_range h1 h2 (Or.inl (by decide)),
      char_ne_of_range h1 h2 (Or.inl (by decide)),
      char_ne_of_range h1 h2 (Or.inl (by decide)),
      char_ne_of_range h1 h2 (Or.inl (by decide)),
      char_ne_of_range h1 h2 (Or.inl (by decide)), ?_⟩
    rintro (he | he | he) <;>
      exact char_ne_of_range h1 h2 (Or.inl (by decide)) he

theorem pyLowerChar_idem (c : Char) : pyLowerChar (pyLowerChar c) = pyLowerChar c := by
  rcases pyLowerChar_spec c with heq | ⟨h1, h2, _⟩
  · rw [heq, heq]
  · generalize hd : pyLowerChar c = d at h1 h2
    unfold pyLowerChar
    rw [if_neg (by omega)]

theorem pyLower_idem (l : List Char) : pyLower (pyLower l) = pyLower l := by
  unfold pyLower
  rw [List.map_map]
  exact List.map_congr_left (fun c _ => pyLowerChar_idem c)

/-! ## Decimal representation facts -/

theorem natRepr_digitRange (n : Nat) : forall c, c ∈ natRepr n → 48 ≤ c.toNat ∧ c.toNat ≤ 57 := by
  induction n using Nat.strong_induction_on with
  | _ n ih =>
    rw [natRepr]
    split
    · next h =>
      intro c hc
      simp only [List.mem_singleton] at hc
      subst hc
      rw [show ('0'.toNat : Nat) = 48 from rfl, toNat_ofNat_lt (by omega)]
      omega
    · next h =>
      intro c hc
      rcases List.mem_append.mp hc with hc | hc
      · exact ih (n / 10) (Nat.div_lt_self (by omega) (by omega)) c hc
      · simp only [List.mem_singleton] at hc
        subst hc
        have hm : n % 10 < 10 := Nat.mod_lt _ (by omega)
        rw [show ('0'.toNat : Nat) = 48 from rfl, toNat_ofNat_lt (by omega)]
        omega

theorem natRepr_ne_nil (n : Nat) : natRepr n ≠ [] := by
  rw [natRepr]
  split <;> simp

theorem digitsToNat_append_digit (l : List Char) (c : Char) :
    digitsToNat (l ++ [c]) = digitsToNat l * 10 + digitVal c := by
  unfold digitsToNat
  rw [List.foldl_append]
  rfl

theorem digitsToNat_natRepr (n : Nat) : digitsToNat (natRepr n) = n := by
  induction n using Nat.strong_induction_on with
  | _ n ih =>
    rw [natRepr]
    split
    · next h =>
      show digitsToNat [Char.ofNat ('0'.toNat + n)] = n
      unfold digitsToNat digitVal
      simp only [List.foldl_cons, List.foldl_nil, Nat.zero_mul, Nat.zero_add]
      rw [show ('0'.toNat : Nat) = 48 from rfl, toNat_ofNat_lt (by omega)]
      omega
    · next h =>
      rw [digitsToNat_append_digit, ih (n / 10) (Nat.div_lt_self (by omega) (by omega))]
      have hm : n % 10 < 10 := Nat.mod_lt _ (by omega)
      have hd : digitVal (Char.ofNat ('0'.toNat + n % 10)) = n % 10 := by
        unfold digitVal
        rw [show ('0'.toNat : Nat) = 48 from rfl, toNat_ofNat_lt (by omega)]
        omega
      rw [hd]
      omega

theorem natRepr_isDigit (n : Nat) : ∀ c ∈ natRepr n, c.isDigit = true := by
  intro c hc
  have := natRepr_digitRange n c hc
  simp only [Char.isDigit]
  simp only [Bool.and_eq_true, decide_eq_true_eq]
  exact ⟨this.1, this.2⟩

theorem natRepr_netlocSafe (n : Nat) : ∀ c ∈ natRepr n, netlocSafeChar c = true := by
  intro c hc
  have h := natRepr_digitRange n c hc
  simp only [netlocSafeChar, isUnsafeUrlChar, Bool.and_eq_true, decide_eq_true_eq,
    Bool.not_eq_true', Bool.or_eq_false_iff, decide_eq_false_iff_not]
  refine ⟨char_ne_of_range h.1 h.2 (Or.inl (by decide)),
    char_ne_of_range h.1 h.2 (Or.inr (by decide)),
    char_ne_of_range h.1 h.2 (Or.inl (by decide)),
    char_ne_of_range h.1 h.2 (Or.inr (by decide)),
    char_ne_of_range h.1 h.2 (Or.inr (by decide)), ?_⟩
  rintro (he | he | he) <;>
    exact char_ne_of_range h.1 h.2 (Or.inl (by decide)) he

/-! ## Safety predicate unpacking -/

theorem netlocSafeChar_props {c : Char} (h : netlocSafeChar c = true) :
    c ≠ '/' ∧ c ≠ '?' ∧ c ≠ '#' ∧ c ≠ '[' ∧ c ≠ ']' ∧ isUnsafeUrlChar c = false := by
  simpa [netlocSafeChar, Bool.and_eq_true, decide_eq_true_eq, Bool.not_eq_true'] using h

theorem pathSafeChar_props {c : Char} (h : pathSafeChar c = true) :
    c ≠ '?' ∧ c ≠ '#' ∧ isUnsafeUrlChar c = false := by
  simpa [pathSafeChar, Bool.and_eq_true, decide_eq_true_eq, Bool.not_eq_true'] using h

theorem querySafeChar_props {c : Char} (h : querySafeChar c = true) :
    c ≠ '#' ∧ isUnsafeUrlChar c = false := by
  simpa [querySafeChar, Bool.and_eq_true, decide_eq_true_eq, Bool.not_eq_true'] using h

theorem isSchemeChar_facts {c : Char} (h : isSchemeChar c = true) :
    33 ≤ c.toNat ∧ c.toNat ≠ 58 ∧ isUnsafeUrlChar c = false := by
  simp only [isSchemeChar, Char.isAlpha, Char.isUpper, Char.isLower, Char.isDigit,
    Bool.or_eq_true, Bool.and_eq_true, decide_eq_true_eq] at h
  have hval : 33 ≤ c.toNat ∧ c.toNat ≠ 58 := by
    rcases h with (⟨h1, h2⟩ | ⟨h1, h2⟩) | ⟨h1, h2⟩ | h | h | h
    · have h1n : 65 ≤ c.toNat := h1
      have h2n : c.toNat ≤ 90 := h2
      omega
    · have h1n : 97 ≤ c.toNat := h1
      have h2n : c.toNat ≤ 122 := h2
      omega
    · have h1n : 48 ≤ c.toNat := h1
      have h2n : c.toNat ≤ 57 := h2
      omega
    · subst h; exact ⟨by decide, by decide⟩
    · subst h; exact ⟨by decide, by decide⟩
    · subst h; exact ⟨by decide, by decide⟩
  refine ⟨hval.1, hval.2, ?_⟩
  simp only [isUnsafeUrlChar, decide_eq_false_iff_not]
  have h9 : ('\t' : Char).toNat = 9 := by decide
  have h13 : ('\x0d' : Char).toNat = 13 := by decide
  have h10 : ('\n' : Char).toNat = 10 := by decide
  rintro (he | he | he) <;> rw [char_eq_iff_toNat] at he <;> omega

theorem wfSchemeB_facts {s : List Char} (h : wfSchemeB s = true) :
    s ≠ [] ∧ (s.headD ' ').isAlpha = true ∧ (∀ c ∈ s, isSchemeChar c = true) := by
  cases s with
  | nil => simp [wfSchemeB] at h
  | cons c rest =>
    simp only [wfSchemeB, Bool.and_eq_true, List.all_eq_true, decide_eq_true_eq] at h
    exact ⟨by simp, by simpa using h.1, fun x hx => h.2 x hx⟩

/-! ## Shape of `urlunsplit` output -/

theorem urlunsplit_shape (s n u q f : List Char) (hn : n ≠ [])
    (hu : u = [] ∨ u.headD ' ' = '/') :
    urlunsplit s n u q f =
      (if s = [] then [] else s ++ [':']) ++ '/' :: '/' :: (n ++ u) ++
        (if q = [] then [] else '?' :: q) ++ (if f = [] then [] else '#' :: f) := by
  unfold urlunsplit
  rw [if_pos (Or.inl hn)]
  have hinner : ¬(u ≠ [] ∧ u.headD ' ' ≠ '/') := by
    rcases hu with hu | hu
    · intro hcon; exact hcon.1 hu
    · intro hcon; exact hcon.2 hu
  rw [if_neg hinner]
  by_cases hs : s = [] <;> by_cases hq : q = [] <;> by_cases hf : f = [] <;>
    simp [hs, hq, hf]

/-! ## The `urlsplit` round trip -/

theorem hash_step {u q f : List Char}
    (hnm : '#' ∉ u ++ (if q = [] then [] else '?' :: q)) :
    (match splitFirst '#'
        (u ++ (if q = [] then [] else '?' :: q) ++ (if f = [] then [] else '#' :: f)) with
     | some (a, b) => (a, b)
     | none => (u ++ (if q = [] then [] else '?' :: q) ++ (if f = [] then [] else '#' :: f), [])) =
      (u ++ (if q = [] then [] else '?' :: q), f) := by
  by_cases hf : f = []
  · subst hf
    rw [if_pos rfl, List.append_nil, splitFirst_not_mem hnm]
  · rw [if_neg hf, splitFirst_append hnm]

theorem question_step {u q : List Char} (hnm : '?' ∉ u) :
    (match splitFirst '?' (u ++ (if q = [] then [] else '?' :: q)) with
     | some (a, b) => (a, b)
     | none => (u ++ (if q = [] then [] else '?' :: q), [])) = (u, q) := by
  by_cases hq : q = []
  · subst hq
    rw [if_pos rfl, List.append_nil, splitFirst_not_mem hnm]
  · rw [if_neg hq, splitFirst_append hnm]


theorem netlocPred_of_safe {c : Char} (h : netlocSafeChar c = true) :
    (fun c => c ≠ '/' ∧ c ≠ '?' ∧ c ≠ '#' : Char → Bool) c = true := by
  have hp := netlocSafeChar_props h
  simp [hp.1, hp.2.1, hp.2.2.1]

theorem netloc_takeWhile (n T : List Char)
    (hnc : ∀ c ∈ n, netlocSafeChar c = true)
    (hT : T = [] ∨ T.headD ' ' = '/' ∨ T.headD ' ' = '?' ∨ T.headD ' ' = '#') :
    (n ++ T).takeWhile (fun c => c ≠ '/' ∧ c ≠ '?' ∧ c ≠ '#') = n ∧
      (n ++ T).dropWhile (fun c => c ≠ '/' ∧ c ≠ '?' ∧ c ≠ '#') = T := by
  have hhead : T = [] ∨
      (fun c => c ≠ '/' ∧ c ≠ '?' ∧ c ≠ '#' : Char → Bool) (T.headD ' ') = false := by
    rcases hT with hT | hT | hT | hT
    · exact Or.inl hT
    all_goals (right; rw [hT]; decide)
  refine ⟨?_, ?_⟩
  · rw [takeWhile_append_of_all (fun c hc => netlocPred_of_safe (hnc c hc)),
      takeWhile_eq_nil_of_head hhead, List.append_nil]
  · rw [dropWhile_append_of_all (fun c hc => netlocPred_of_safe (hnc c hc)),
      dropWhile_eq_self_of_head hhead]


theorem notmem_hash_uqp {u QP : List Char}
    (huc : ∀ c ∈ u, pathSafeChar c = true)
    (hQPc : ∀ c ∈ QP, c = '?' ∨ querySafeChar c = true) :
    '#' ∉ u ++ QP := by
  intro hmem
  rcases List.mem_append.mp hmem with hc | hc
  · exact (pathSafeChar_props (huc _ hc)).2.1 rfl
  · rcases hQPc _ hc with he | hs
    · exact absurd he (by decide)
    · exact (querySafeChar_props hs).1 rfl

theorem notmem_question_u {u : List Char} (huc : ∀ c ∈ u, pathSafeChar c = true) :
    '?' ∉ u := by
  intro hmem
  exact (pathSafeChar_props (huc _ hmem)).1 rfl

theorem urlsplitRest_core (sch n u q f QP FP : List Char)
    (hnc : ∀ c ∈ n, netlocSafeChar c = true)
    (hu : u = [] ∨ u.headD ' ' = '/')
    (huc : ∀ c ∈ u, pathSafeChar c = true)
    (hqc : ∀ c ∈ q, querySafeChar c = true)
    (hQP : q = [] ∧ QP = [] ∨ q ≠ [] ∧ QP = '?' :: q)
    (hFP : f = [] ∧ FP = [] ∨ f ≠ [] ∧ FP = '#' :: f) :
    urlsplitRest sch ('/' :: '/' :: (n ++ (u ++ QP ++ FP))) = .ok ⟨sch, n, u, q, f⟩ := by
  have hbr1 : ¬(('[' ∈ n ∧ ']' ∉ n) ∨ (']' ∈ n ∧ '[' ∉ n)) := by
    rintro (⟨h1, _⟩ | ⟨h1, _⟩)
    · exact (netlocSafeChar_props (hnc _ h1)).2.2.2.1 rfl
    · exact (netlocSafeChar_props (hnc _ h1)).2.2.2.2.1 rfl
  have hbr2 : ¬('[' ∈ n ∧ ']' ∈ n) := by
    rintro ⟨h1, _⟩
    exact (netlocSafeChar_props (hnc _ h1)).2.2.2.1 rfl
  have hQPc : ∀ c ∈ QP, c = '?' ∨ querySafeChar c = true := by
    rcases hQP with ⟨_, rfl⟩ | ⟨_, rfl⟩
    · intro c hc; cases hc
    · intro c hc
      rcases List.mem_cons.mp hc with rfl | hc
      · exact Or.inl rfl
      · exact Or.inr (hqc c hc)
  have hThead : u ++ QP ++ FP = [] ∨ (u ++ QP ++ FP).headD ' ' = '/' ∨
      (u ++ QP ++ FP).headD ' ' = '?' ∨ (u ++ QP ++ FP).headD ' ' = '#' := by
    cases u with
    | cons c u2 =>
      rcases hu with h0 | hh
      · cases h0
      · right; left
        simp only [List.cons_append, List.headD_cons]
        simpa using hh
    | nil =>
      rcases hQP with ⟨_, rfl⟩ | ⟨_, rfl⟩
      · rcases hFP with ⟨_, rfl⟩ | ⟨_, rfl⟩
        · exact Or.inl rfl
        · right; right; right; rfl
      · right; right; left; rfl
  obtain ⟨hTW, hDW⟩ := netloc_takeWhile n _ hnc hThead
  have hhq : '#' ∉ u ++ QP := notmem_hash_uqp huc hQPc
  have hqu : '?' ∉ u := notmem_question_u huc
  unfold urlsplitRest
  rw [if_pos (show ('/' :: '/' :: (n ++ (u ++ QP ++ FP))).take 2 = ['/', '/'] from rfl)]
  simp only [List.drop_succ_cons, List.drop_zero]
  rw [hTW, hDW, if_neg hbr1, if_neg hbr2, pure_bind]
  rcases hFP with ⟨rfl, rfl⟩ | ⟨hf, rfl⟩
  · rw [List.append_nil, splitFirst_not_mem hhq]
    rcases hQP with ⟨rfl, rfl⟩ | ⟨hq, rfl⟩
    · rw [List.append_nil, splitFirst_not_mem hqu]
      rfl
    · rw [splitFirst_append hqu]
      rfl
  · rw [splitFirst_append hhq]
    rcases hQP with ⟨rfl, rfl⟩ | ⟨hq, rfl⟩
    · rw [List.append_nil, splitFirst_not_mem hqu]
      rfl
    · rw [splitFirst_append hqu]
      rfl


theorem urlsplit_slashslash (Y : List Char)
    (hY : ∀ c ∈ Y, isUnsafeUrlChar c = false) :
    urlsplit ('/' :: '/' :: Y) = urlsplitRest [] ('/' :: '/' :: Y) := by
  unfold urlsplit
  have hcl : ∀ c ∈ '/' :: '/' :: Y, isUnsafeUrlChar c = false := by
    intro c hc
    rcases List.mem_cons.mp hc with rfl | hc
    · decide
    · rcases List.mem_cons.mp hc with rfl | hc
      · decide
      · exact hY c hc
  have h1 : lstripC0 ('/' :: '/' :: Y) = '/' :: '/' :: Y :=
    lstripC0_eq_self (Or.inr (by rw [List.headD_cons]; decide))
  have h2 : removeUnsafe ('/' :: '/' :: Y) = '/' :: '/' :: Y :=
    removeUnsafe_eq_self hcl
  rw [h1, h2]
  rcases hsp : splitFirst ':' ('/' :: '/' :: Y) with _ | ⟨a, b⟩
  · simp only [hsp]
  · rcases splitFirst_eq_some_iff.mp hsp with ⟨heq, _⟩
    cases a with
    | nil =>
      have hbad : '/' = ':' := by simpa using congrArg (fun t => t.headD ' ') heq
      exact absurd hbad (by decide)
    | cons c0 a2 =>
      have hc0 : '/' = c0 := by simpa using congrArg (fun t => t.headD ' ') heq
      subst hc0
      simp only [hsp]
      rw [if_neg]
      rintro ⟨h1, _⟩
      exact absurd h1 (by decide)

theorem urlsplit_scheme_append (s Y : List Char)
    (hws : wfSchemeB s = true)
    (hY : ∀ c ∈ Y, isUnsafeUrlChar c = false) :
    urlsplit (s ++ ':' :: Y) = urlsplitRest (pyLower s) Y := by
  obtain ⟨hne, hhead, hall⟩ := wfSchemeB_facts hws
  cases s with
  | nil => exact absurd rfl hne
  | cons c0 s2 =>
    unfold urlsplit
    have hcl : ∀ c ∈ (c0 :: s2) ++ ':' :: Y, isUnsafeUrlChar c = false := by
      intro c hc
      rcases List.mem_append.mp hc with hc | hc
      · exact (isSchemeChar_facts (hall c hc)).2.2
      · rcases List.mem_cons.mp hc with rfl | hc
        · decide
        · exact hY c hc
    have h33 : 33 ≤ c0.toNat := (isSchemeChar_facts (hall c0 (by simp))).1
    have h1 : lstripC0 ((c0 :: s2) ++ ':' :: Y) = (c0 :: s2) ++ ':' :: Y := by
      apply lstripC0_eq_self
      right
      rw [List.cons_append, List.headD_cons]
      simp only [decide_eq_false_iff_not]
      omega
    have h2 : removeUnsafe ((c0 :: s2) ++ ':' :: Y) = (c0 :: s2) ++ ':' :: Y :=
      removeUnsafe_eq_self hcl
    rw [h1, h2]
    have hcolon : ':' ∉ c0 :: s2 := by
      intro hc
      have := (isSchemeChar_facts (hall ':' hc)).2.1
      exact this rfl
    have hcond : c0.isAlpha = true ∧ (c0 :: s2).all isSchemeChar = true := by
      refine ⟨by simpa using hhead, ?_⟩
      rw [List.all_eq_true]
      intro c hc
      exact hall c hc
    simp only [splitFirst_append hcolon]
    rw [if_pos hcond]

theorem urlsplit_unsplit (s n u q f : List Char)
    (hs : s = [] ∨ wfSchemeB s = true)
    (hn : n ≠ [])
    (hnc : ∀ c ∈ n, netlocSafeChar c = true)
    (hu : u = [] ∨ u.headD ' ' = '/')
    (huc : ∀ c ∈ u, pathSafeChar c = true)
    (hqc : ∀ c ∈ q, querySafeChar c = true)
    (hfc : ∀ c ∈ f, isUnsafeUrlChar c = false) :
    urlsplit (urlunsplit s n u q f) = .ok ⟨pyLower s, n, u, q, f⟩ := by
  rw [urlunsplit_shape s n u q f hn hu]
  have hQP : q = [] ∧ (if q = [] then [] else '?' :: q) = [] ∨
      q ≠ [] ∧ (if q = [] then ([] : List Char) else '?' :: q) = '?' :: q := by
    by_cases h : q = []
    · exact Or.inl ⟨h, if_pos h⟩
    · exact Or.inr ⟨h, if_neg h⟩
  have hFP : f = [] ∧ (if f = [] then [] else '#' :: f) = [] ∨
      f ≠ [] ∧ (if f = [] then ([] : List Char) else '#' :: f) = '#' :: f := by
    by_cases h : f = []
    · exact Or.inl ⟨h, if_pos h⟩
    · exact Or.inr ⟨h, if_neg h⟩
  have hQPc : ∀ c ∈ (if q = [] then [] else '?' :: q), c = '?' ∨ querySafeChar c = true := by
    intro c hc
    split at hc
    · cases hc
    · rcases List.mem_cons.mp hc with rfl | hc
      · exact Or.inl rfl
      · exact Or.inr (hqc c hc)
  have hFPc : ∀ c ∈ (if f = [] then [] else '#' :: f), c = '#' ∨ isUnsafeUrlChar c = false := by
    intro c hc
    split at hc
    · cases hc
    · rcases List.mem_cons.mp hc with rfl | hc
      · exact Or.inl rfl
      · exact Or.inr (hfc c hc)
  have hYfree : ∀ c ∈ '/' :: '/' :: (n ++ (u ++ (if q = [] then [] else '?' :: q) ++
      (if f = [] then [] else '#' :: f))), isUnsafeUrlChar c = false := by
    intro c hc
    simp only [List.mem_cons, List.mem_append] at hc
    rcases hc with rfl | rfl | hc | (hc | hc) | hc
    · decide
    · decide
    · exact (netlocSafeChar_props (hnc c hc)).2.2.2.2.2
    · exact (pathSafeChar_props (huc c hc)).2.2
    · rcases hQPc c hc with rfl | hclean
      · decide
      · exact (querySafeChar_props hclean).2
    · rcases hFPc c hc with rfl | hclean
      · decide
      · exact hclean
  rcases hs with rfl | hws
  · have hpfx : (if ([] : List Char) = [] then ([] : List Char) else [] ++ [':']) = [] := by
      simp
    rw [hpfx, List.nil_append]
    have hbody : ('/' :: '/' :: (n ++ u) : List Char) ++
        (if q = [] then [] else '?' :: q) ++ (if f = [] then [] else '#' :: f) =
        '/' :: '/' :: (n ++ (u ++ (if q = [] then [] else '?' :: q) ++
          (if f = [] then [] else '#' :: f))) := by
      simp [List.cons_append, List.append_assoc]
    rw [hbody, urlsplit_slashslash _ (fun c hc => hYfree c (by
      simp only [List.mem_cons] at hc ⊢
      tauto))]
    rw [show pyLower ([] : List Char) = [] from rfl]
    exact urlsplitRest_core [] n u q f _ _ hnc hu huc hqc hQP hFP
  · have hsne : s ≠ [] := (wfSchemeB_facts hws).1
    rw [if_neg hsne]
    have hbody : ((s ++ [':']) ++ ('/' :: '/' :: (n ++ u) : List Char)) ++
        (if q = [] then [] else '?' :: q) ++ (if f = [] then [] else '#' :: f) =
        s ++ ':' :: ('/' :: '/' :: (n ++ (u ++ (if q = [] then [] else '?' :: q) ++
          (if f = [] then [] else '#' :: f)))) := by
      simp [List.cons_append, List.append_assoc]
    rw [hbody, urlsplit_scheme_append s _ hws hYfree]
    exact urlsplitRest_core (pyLower s) n u q f _ _ hnc hu huc hqc hQP hFP


theorem isAlpha_iff_toNat {c : Char} :
    c.isAlpha = true ↔ (65 ≤ c.toNat ∧ c.toNat ≤ 90) ∨ (97 ≤ c.toNat ∧ c.toNat ≤ 122) := by
  simp only [Char.isAlpha, Char.isUpper, Char.isLower, Bool.or_eq_true, Bool.and_eq_true,
    decide_eq_true_eq]
  constructor
  · rintro (⟨a, b⟩ | ⟨a, b⟩)
    · exact Or.inl ⟨a, b⟩
    · exact Or.inr ⟨a, b⟩
  · rintro (⟨a, b⟩ | ⟨a, b⟩)
    · exact Or.inl ⟨a, b⟩
    · exact Or.inr ⟨a, b⟩

theorem pyLowerChar_isAlpha {c : Char} (h : c.isAlpha = true) :
    (pyLowerChar c).isAlpha = true := by
  rcases pyLowerChar_spec c with heq | ⟨h1, h2, _⟩
  · rw [heq]; exact h
  · exact isAlpha_iff_toNat.mpr (Or.inr ⟨h1, h2⟩)

theorem pyLowerChar_scheme {c : Char} (h : isSchemeChar c = true) :
    isSchemeChar (pyLowerChar c) = true := by
  rcases pyLowerChar_spec c with heq | ⟨h1, h2, _⟩
  · rw [heq]; exact h
  · simp only [isSchemeChar, Bool.or_eq_true, decide_eq_true_eq]
    exact Or.inl (pyLowerChar_isAlpha (isAlpha_iff_toNat.mpr (by omega)))

theorem wfSchemeB_pyLower {s : List Char} (h : wfSchemeB s = true) :
    wfSchemeB (pyLower s) = true := by
  obtain ⟨hne, hhead, hall⟩ := wfSchemeB_facts h
  cases s with
  | nil => exact absurd rfl hne
  | cons c rest =>
    simp only [pyLower, List.map_cons, wfSchemeB, decide_eq_true_eq, Bool.and_eq_true,
      List.all_eq_true]
    constructor
    · exact pyLowerChar_isAlpha (by simpa using hhead)
    · intro x hx
      simp only [List.mem_cons, List.mem_map] at hx
      rcases hx with rfl | ⟨y, hy, rfl⟩
      · simpa using pyLowerChar_scheme (hall c (by simp))
      · simpa using pyLowerChar_scheme (hall y (by simp [hy]))

/-! ## Inversion: components of a successful `urlsplit` -/

theorem mem_of_splitFirst_left {c x : Char} {l a b : List Char}
    (h : splitFirst c l = some (a, b)) (hx : x ∈ a) : x ∈ l := by
  rcases splitFirst_eq_some_iff.mp h with ⟨rfl, _⟩
  simp [hx]

theorem mem_of_splitFirst_right {c x : Char} {l a b : List Char}
    (h : splitFirst c l = some (a, b)) (hx : x ∈ b) : x ∈ l := by
  rcases splitFirst_eq_some_iff.mp h with ⟨rfl, _⟩
  simp [hx]

/-- The fragment/query splitting step, characterized. -/
theorem splitStep_shape (c : Char) (x : List Char) :
    ((match splitFirst c x with
      | some (a, b) => (a, b)
      | none => (x, [])) = (x, []) ∧ c ∉ x) ∨
    splitFirst c x = some ((match splitFirst c x with
      | some (a, b) => (a, b)
      | none => (x, [])).1, (match splitFirst c x with
      | some (a, b) => (a, b)
      | none => (x, [])).2) := by
  rcases h : splitFirst c x with _ | ⟨a, b⟩
  · left
    exact ⟨by simp [h], splitFirst_eq_none_iff.mp h⟩
  · right
    simp [h]

/-- Everything a successful `urlsplitRest` says about its result: the scheme
is passed through; the netloc is empty or carved out of a `'//'` remainder;
path, query and fragment come from the `'#'` and `'?'` splits. -/
theorem urlsplitRest_ok_shape {sch url2 : List Char} {r : SplitResult}
    (h : urlsplitRest sch url2 = .ok r) :
    r.scheme = sch ∧
    ∃ url3,
      (r.netloc = [] ∧ url3 = url2 ∨
        r.netloc = (url2.drop 2).takeWhile (fun c => c ≠ '/' ∧ c ≠ '?' ∧ c ≠ '#') ∧
        url3 = (url2.drop 2).dropWhile (fun c => c ≠ '/' ∧ c ≠ '?' ∧ c ≠ '#')) ∧
      ∃ url4,
        (url4 = url3 ∧ '#' ∉ url3 ∧ r.fragment = [] ∨
          splitFirst '#' url3 = some (url4, r.fragment)) ∧
        (r.path = url4 ∧ '?' ∉ url4 ∧ r.query = [] ∨
          splitFirst '?' url4 = some (r.path, r.query)) := by
  have tail_shape : ∀ (nl u3 : List Char),
      (Except.ok ⟨sch, nl,
          (match splitFirst '?' (match splitFirst '#' u3 with
            | some (a, b) => (a, b)
            | none => (u3, [])).1 with
           | some (a, b) => (a, b)
           | none => ((match splitFirst '#' u3 with
              | some (a, b) => (a, b)
              | none => (u3, [])).1, [])).1,
          (match splitFirst '?' (match splitFirst '#' u3 with
            | some (a, b) => (a, b)
            | none => (u3, [])).1 with
           | some (a, b) => (a, b)
           | none => ((match splitFirst '#' u3 with
              | some (a, b) => (a, b)
              | none => (u3, [])).1, [])).2,
          (match splitFirst '#' u3 with
            | some (a, b) => (a, b)
            | none => (u3, [])).2⟩ : Except PyErr SplitResult) = .ok r →
      r.scheme = sch ∧ r.netloc = nl ∧
      ∃ url4,
        (url4 = u3 ∧ '#' ∉ u3 ∧ r.fragment = [] ∨
          splitFirst '#' u3 = some (url4, r.fragment)) ∧
        (r.path = url4 ∧ '?' ∉ url4 ∧ r.query = [] ∨
          splitFirst '?' url4 = some (r.path, r.query)) := by
    intro nl u3 hh
    obtain rfl := (Except.ok.inj hh)
    refine ⟨rfl, rfl, (match splitFirst '#' u3 with
      | some (a, b) => (a, b)
      | none => (u3, [])).1, ?_, ?_⟩
    · rcases splitStep_shape '#' u3 with ⟨heq, hnm⟩ | hsp
      · left
        refine ⟨by rw [heq], hnm, by rw [heq]⟩
      · right
        exact hsp
    · rcases splitStep_shape '?' (match splitFirst '#' u3 with
        | some (a, b) => (a, b)
        | none => (u3, [])).1 with ⟨heq, hnm⟩ | hsp
      · left
        exact ⟨by rw [heq], hnm, by rw [heq]⟩
      · right
        exact hsp
  unfold urlsplitRest at h
  by_cases h2 : url2.take 2 = ['/', '/']
  · rw [if_pos h2] at h
    by_cases hb1 : ('[' ∈ (url2.drop 2).takeWhile (fun c => c ≠ '/' ∧ c ≠ '?' ∧ c ≠ '#') ∧
        ']' ∉ (url2.drop 2).takeWhile (fun c => c ≠ '/' ∧ c ≠ '?' ∧ c ≠ '#')) ∨
        (']' ∈ (url2.drop 2).takeWhile (fun c => c ≠ '/' ∧ c ≠ '?' ∧ c ≠ '#') ∧
        '[' ∉ (url2.drop 2).takeWhile (fun c => c ≠ '/' ∧ c ≠ '?' ∧ c ≠ '#'))
    · rw [if_pos hb1] at h
      cases h
    · rw [if_neg hb1] at h
      by_cases hb2 : '[' ∈ (url2.drop 2).takeWhile (fun c => c ≠ '/' ∧ c ≠ '?' ∧ c ≠ '#') ∧
          ']' ∈ (url2.drop 2).takeWhile (fun c => c ≠ '/' ∧ c ≠ '?' ∧ c ≠ '#')
      · rw [if_pos hb2] at h
        rcases hch : check_bracketed_host (partitionC ']'
            (partitionC '[' ((url2.drop 2).takeWhile
              (fun c => c ≠ '/' ∧ c ≠ '?' ∧ c ≠ '#'))).2.2).1 with e | u
        · rw [hch] at h
          cases h
        · rw [hch] at h
          obtain ⟨hsch, hnl, rest⟩ := tail_shape _ _ (by exact h)
          exact ⟨hsch, _, Or.inr ⟨hnl, rfl⟩, rest⟩
      · rw [if_neg hb2] at h
        obtain ⟨hsch, hnl, rest⟩ := tail_shape _ _ (by exact h)
        exact ⟨hsch, _, Or.inr ⟨hnl, rfl⟩, rest⟩
  · rw [if_neg h2] at h
    obtain ⟨hsch, hnl, rest⟩ := tail_shape _ _ (by exact h)
    exact ⟨hsch, _, Or.inl ⟨hnl, rfl⟩, rest⟩

theorem dropWhile_head_prop (p : Char → Bool) (l : List Char) :
    l.dropWhile p = [] ∨ p ((l.dropWhile p).headD ' ') = false := by
  induction l with
  | nil => exact Or.inl rfl
  | cons x xs ih =>
    rw [List.dropWhile_cons]
    by_cases hx : p x = true
    · simpa [hx] using ih
    · right
      simp only [Bool.not_eq_true] at hx
      simp [hx]

theorem headD_append_left {a b : List Char} (ha : a ≠ []) :
    ((a ++ b).headD ' ') = a.headD ' ' := by
  cases a with
  | nil => exact absurd rfl ha
  | cons x xs => simp

theorem urlsplit_cases (url0 : List Char) :
    urlsplit url0 = urlsplitRest [] (removeUnsafe (lstripC0 url0)) ∨
    ∃ s b, wfSchemeB s = true ∧ (∀ c ∈ b, c ∈ removeUnsafe (lstripC0 url0)) ∧
      urlsplit url0 = urlsplitRest (pyLower s) b := by
  unfold urlsplit
  rcases hsp : splitFirst ':' (removeUnsafe (lstripC0 url0)) with _ | ⟨a, b⟩
  · left
    simp only [hsp]
  · cases a with
    | nil =>
      left
      simp only [hsp]
    | cons c0 a2 =>
      by_cases hcond : c0.isAlpha = true ∧ (c0 :: a2).all isSchemeChar = true
      · right
        refine ⟨c0 :: a2, b, ?_, ?_, ?_⟩
        · simp only [wfSchemeB, Bool.and_eq_true, decide_eq_true_eq]
          exact hcond
        · intro c hc
          exact mem_of_splitFirst_right hsp hc
        · simp only [hsp]
          rw [if_pos hcond]
      · left
        simp only [hsp]
        rw [if_neg hcond]

/-- Component facts of every successful `urlsplit`: the scheme is empty or a
lowercase well-formed scheme; the netloc carries no `/?#` and nothing the
unsafe-byte removal strips; path, query, fragment are safe for a reparse;
and with a netloc present the path is empty or absolute. -/
theorem urlsplit_ok_facts {url0 : List Char} {r : SplitResult}
    (h : urlsplit url0 = .ok r) :
    (r.scheme = [] ∨ (wfSchemeB r.scheme = true ∧ pyLower r.scheme = r.scheme)) ∧
    (∀ c ∈ r.netloc, c ≠ '/' ∧ c ≠ '?' ∧ c ≠ '#' ∧ isUnsafeUrlChar c = false) ∧
    (∀ c ∈ r.path, pathSafeChar c = true) ∧
    (∀ c ∈ r.query, querySafeChar c = true) ∧
    (∀ c ∈ r.fragment, isUnsafeUrlChar c = false) ∧
    (r.netloc ≠ [] → r.path = [] ∨ r.path.headD ' ' = '/') := by
  have hu1 : ∀ c ∈ removeUnsafe (lstripC0 url0), isUnsafeUrlChar c = false := by
    intro c hc
    have := (List.mem_filter.mp hc).2
    simpa using this
  -- analyze the scheme step
  have main : ∀ (sch url2 : List Char),
      (sch = [] ∨ (wfSchemeB sch = true ∧ pyLower sch = sch)) →
      (∀ c ∈ url2, isUnsafeUrlChar c = false) →
      urlsplitRest sch url2 = .ok r →
      (r.scheme = [] ∨ (wfSchemeB r.scheme = true ∧ pyLower r.scheme = r.scheme)) ∧
      (∀ c ∈ r.netloc, c ≠ '/' ∧ c ≠ '?' ∧ c ≠ '#' ∧ isUnsafeUrlChar c = false) ∧
      (∀ c ∈ r.path, pathSafeChar c = true) ∧
      (∀ c ∈ r.query, querySafeChar c = true) ∧
      (∀ c ∈ r.fragment, isUnsafeUrlChar c = false) ∧
      (r.netloc ≠ [] → r.path = [] ∨ r.path.headD ' ' = '/') := by
    intro sch url2 hsch hcl hrest
    obtain ⟨hrs, url3, hnet, url4, hfrag, hpq⟩ := urlsplitRest_ok_shape hrest
    -- membership transfer into url2
    have hurl3 : ∀ c ∈ url3, c ∈ url2 := by
      rcases hnet with ⟨_, rfl⟩ | ⟨_, rfl⟩
      · exact fun c hc => hc
      · intro c hc
        exact (List.drop_sublist 2 url2).subset ((List.dropWhile_suffix _).sublist.subset hc)
    have hurl4 : ∀ c ∈ url4, c ∈ url3 := by
      rcases hfrag with ⟨rfl, _, _⟩ | hsp
      · exact fun c hc => hc
      · exact fun c hc => mem_of_splitFirst_left hsp hc
    have hpathm : ∀ c ∈ r.path, c ∈ url4 := by
      rcases hpq with ⟨rfl, _, _⟩ | hsp
      · exact fun c hc => hc
      · exact fun c hc => mem_of_splitFirst_left hsp hc
    have hhash4 : '#' ∉ url4 := by
      rcases hfrag with ⟨rfl, hnm, _⟩ | hsp
      · exact hnm
      · exact (splitFirst_eq_some_iff.mp hsp).2
    have hq4 : '?' ∉ r.path := by
      rcases hpq with ⟨rfl, hnm, _⟩ | hsp
      · exact hnm
      · exact fun hc => (splitFirst_eq_some_iff.mp hsp).2 hc
    refine ⟨hrs ▸ hsch, ?_, ?_, ?_, ?_, ?_⟩
    · intro c hc
      rcases hnet with ⟨hnl, _⟩ | ⟨hnl, _⟩
      · rw [hnl] at hc
        cases hc
      · rw [hnl] at hc
        have hpred := List.mem_takeWhile_imp hc
        have hmem : c ∈ url2 :=
          (List.drop_sublist 2 url2).subset ((List.takeWhile_prefix _).sublist.subset hc)
        simp only [decide_eq_true_eq] at hpred
        exact ⟨hpred.1, hpred.2.1, hpred.2.2, hcl c hmem⟩
    · intro c hc
      have h4 : c ∈ url4 := hpathm c hc
      simp only [pathSafeChar, Bool.and_eq_true, decide_eq_true_eq, Bool.not_eq_true']
      refine ⟨?_, ?_, ?_⟩
      · intro he; subst he; exact hq4 hc
      · intro he; subst he; exact hhash4 h4
      · exact hcl c (hurl3 _ (hurl4 _ h4))
    · intro c hc
      have hcq : c ∈ url4 := by
        rcases hpq with ⟨_, _, hq⟩ | hsp
        · rw [hq] at hc
          cases hc
        · exact mem_of_splitFirst_right hsp hc
      simp only [querySafeChar, Bool.and_eq_true, decide_eq_true_eq, Bool.not_eq_true']
      refine ⟨?_, ?_⟩
      · intro he; subst he; exact hhash4 hcq
      · exact hcl c (hurl3 _ (hurl4 _ hcq))
    · intro c hc
      rcases hfrag with ⟨_, _, hf⟩ | hsp
      · rw [hf] at hc
        cases hc
      · exact hcl c (hurl3 _ (mem_of_splitFirst_right hsp hc))
    · intro hne
      rcases hnet with ⟨hnl, _⟩ | ⟨hnl, hu3⟩
      · exact absurd hnl hne
      · -- url3 is a dropWhile result: empty or headed by a delimiter
        by_cases hp0 : r.path = []
        · exact Or.inl hp0
        · right
          have hpath4 : url4 ≠ [] ∧ url4.headD ' ' = r.path.headD ' ' := by
            rcases hpq with ⟨hp, _, _⟩ | hsp
            · rw [hp]
              exact ⟨fun he => hp0 (hp.symm ▸ he), rfl⟩
            · rcases splitFirst_eq_some_iff.mp hsp with ⟨heq, _⟩
              cases hpl : r.path with
              | nil => exact absurd hpl hp0
              | cons x xs =>
                rw [heq, hpl]
                exact ⟨by simp, by simp⟩
          have hpath3 : url3 ≠ [] ∧ url3.headD ' ' = url4.headD ' ' := by
            rcases hfrag with ⟨hp, _, _⟩ | hsp
            · rw [← hp]
              exact ⟨hpath4.1, rfl⟩
            · rcases splitFirst_eq_some_iff.mp hsp with ⟨heq, _⟩
              cases hpl : url4 with
              | nil => exact absurd hpl hpath4.1
              | cons x xs =>
                rw [heq, hpl]
                exact ⟨by simp, by simp⟩
          have hdrop := dropWhile_head_prop
            (fun c => c ≠ '/' ∧ c ≠ '?' ∧ c ≠ '#') (url2.drop 2)
          rw [← hu3] at hdrop
          rcases hdrop with h3 | h3
          · exact absurd h3 hpath3.1
          · simp only [decide_eq_true_eq, decide_eq_false_iff_not, not_and, not_not] at h3
            have hh : url3.headD ' ' = '/' ∨ url3.headD ' ' = '?' ∨ url3.headD ' ' = '#' := by
              by_cases e1 : url3.headD ' ' = '/'
              · exact Or.inl e1
              · by_cases e2 : url3.headD ' ' = '?'
                · exact Or.inr (Or.inl e2)
                · exact Or.inr (Or.inr (h3 e1 e2))
            have hph : r.path.headD ' ' = url3.headD ' ' := by
              rw [hpath3.2, hpath4.2]
            rcases hh with hh | hh | hh
            · rw [hph, hh]
            · exfalso
              apply hq4
              rw [← hph] at hh
              cases hpl : r.path with
              | nil => exact absurd hpl hp0
              | cons x xs =>
                rw [hpl] at hh
                simp only [List.headD_cons] at hh
                rw [hh]
                exact List.mem_cons_self _ _
            · exfalso
              apply hhash4
              apply hpathm
              rw [← hph] at hh
              cases hpl : r.path with
              | nil => exact absurd hpl hp0
              | cons x xs =>
                rw [hpl] at hh
                simp only [List.headD_cons] at hh
                rw [hh]
                exact List.mem_cons_self _ _
  -- resolve the scheme step of `urlsplit`
  rcases urlsplit_cases url0 with heq | ⟨s, b, hws, hbm, heq⟩
  · rw [heq] at h
    exact main _ _ (Or.inl rfl) hu1 h
  · rw [heq] at h
    refine main _ _ (Or.inr ⟨wfSchemeB_pyLower hws, pyLower_idem _⟩) ?_ h
    intro c hc
    exact hu1 c (hbm c hc)

theorem splitFirst_some_of_mem {c : Char} {l : List Char} (h : c ∈ l) :
    ∃ a b, splitFirst c l = some (a, b) := by
  rcases hsp : splitFirst c l with _ | ⟨a, b⟩
  · exact absurd (splitFirst_eq_none_iff.mp hsp) (by simpa using h)
  · exact ⟨a, b, rfl⟩

theorem exists_last_decomp {c : Char} {l : List Char} (h : c ∈ l) :
    ∃ a b, l = a ++ c :: b ∧ c ∉ b := by
  induction l with
  | nil => cases h
  | cons x xs ih =>
    by_cases hm : c ∈ xs
    · rcases ih hm with ⟨a, b, rfl, hb⟩
      exact ⟨x :: a, b, rfl, hb⟩
    · rcases List.mem_cons.mp h with rfl | hc
      · exact ⟨[], xs, rfl, hm⟩
      · exact absurd hc hm

theorem partitionC_fst_subset (c : Char) (l : List Char) :
    ∀ x ∈ (partitionC c l).1, x ∈ l := by
  by_cases hm : c ∈ l
  · rcases splitFirst_some_of_mem hm with ⟨a, b, hsp⟩
    rcases splitFirst_eq_some_iff.mp hsp with ⟨heq, _⟩
    have hval : partitionC c l = (a, true, b) := by
      unfold partitionC
      rw [hsp]
    rw [hval, heq]
    intro x hx
    exact List.mem_append.mpr (Or.inl hx)
  · rw [partitionC_not_mem hm]
    exact fun x hx => hx

theorem partitionC_trd_subset (c : Char) (l : List Char) :
    ∀ x ∈ (partitionC c l).2.2, x ∈ l := by
  by_cases hm : c ∈ l
  · rcases splitFirst_some_of_mem hm with ⟨a, b, hsp⟩
    rcases splitFirst_eq_some_iff.mp hsp with ⟨heq, _⟩
    have hval : partitionC c l = (a, true, b) := by
      unfold partitionC
      rw [hsp]
    rw [hval, heq]
    intro x hx
    exact List.mem_append.mpr (Or.inr (List.mem_cons.mpr (Or.inr hx)))
  · rw [partitionC_not_mem hm]
    exact fun x hx => absurd hx (List.not_mem_nil x)

theorem rpartitionC_trd_subset (c : Char) (l : List Char) :
    ∀ x ∈ (rpartitionC c l).2.2, x ∈ l := by
  by_cases hm : c ∈ l
  · rcases exists_last_decomp hm with ⟨a, b, rfl, hb⟩
    rw [rpartitionC_append hb]
    intro x hx
    exact List.mem_append.mpr (Or.inr (List.mem_cons.mpr (Or.inr hx)))
  · rw [rpartitionC_not_mem hm]
    exact fun x hx => hx

theorem splitparams_eq_of_slash {x bf af : List Char}
    (heq : x = bf ++ '/' :: af) (haf : '/' ∉ af) :
    splitparams x =
      match splitFirst ';' af with
      | some (a1, a2) => (bf ++ '/' :: a1, a2)
      | none => (x, []) := by
  subst heq
  unfold splitparams
  rw [if_pos (List.mem_append.mpr (Or.inr (List.mem_cons.mpr (Or.inl rfl))))]
  rw [rpartitionC_append haf]

theorem splitparams_eq_of_noslash {x : List Char} (hm : '/' ∉ x) :
    splitparams x =
      match splitFirst ';' x with
      | some (a, b) => (a, b)
      | none => (x, []) := by
  unfold splitparams
  rw [if_neg hm]

theorem splitparams_facts (x : List Char) :
    (∀ c ∈ (splitparams x).1, c ∈ x) ∧ (∀ c ∈ (splitparams x).2, c ∈ x) ∧
    (x.headD ' ' = '/' → (splitparams x).1 = [] ∨ (splitparams x).1.headD ' ' = '/') := by
  by_cases hm : '/' ∈ x
  · rcases exists_last_decomp hm with ⟨bf, af, heq, haf⟩
    rw [splitparams_eq_of_slash heq haf]
    rcases hsp : splitFirst ';' af with _ | ⟨a1, a2⟩
    · exact ⟨fun c hc => hc, fun c hc => absurd hc (List.not_mem_nil c),
        fun hx => Or.inr hx⟩
    · rcases splitFirst_eq_some_iff.mp hsp with ⟨hafq, _⟩
      refine ⟨?_, ?_, ?_⟩
      · intro c hc
        rw [heq]
        simp only [List.mem_append, List.mem_cons] at hc ⊢
        rcases hc with hc | hc | hc
        · exact Or.inl hc
        · exact Or.inr (Or.inl hc)
        · exact Or.inr (Or.inr (by rw [hafq]; exact List.mem_append.mpr (Or.inl hc)))
      · intro c hc
        rw [heq]
        simp only [List.mem_append, List.mem_cons]
        exact Or.inr (Or.inr (by
          rw [hafq]
          exact List.mem_append.mpr (Or.inr (List.mem_cons.mpr (Or.inr hc)))))
      · intro hx
        right
        cases bf with
        | nil => simp
        | cons y ys =>
          rw [headD_append_left (by simp)]
          rw [heq, headD_append_left (by simp)] at hx
          exact hx
  · rw [splitparams_eq_of_noslash hm]
    rcases hsp : splitFirst ';' x with _ | ⟨a, b⟩
    · exact ⟨fun c hc => hc, fun c hc => absurd hc (List.not_mem_nil c),
        fun hx => Or.inr hx⟩
    · rcases splitFirst_eq_some_iff.mp hsp with ⟨hxq, _⟩
      refine ⟨?_, ?_, ?_⟩
      · intro c hc
        rw [hxq]
        exact List.mem_append.mpr (Or.inl hc)
      · intro c hc
        rw [hxq]
        exact List.mem_append.mpr (Or.inr (List.mem_cons.mpr (Or.inr hc)))
      · intro hx
        cases a with
        | nil => exact Or.inl rfl
        | cons y ys =>
          right
          rw [hxq, headD_append_left (by simp)] at hx
          simpa using hx

/-- Component facts of every successful `urlparse`: like `urlsplit_ok_facts`,
with the params component split off the path. -/
theorem urlparse_ok_facts {url0 : List Char} {r : ParseResult}
    (h : urlparse url0 = .ok r) :
    (r.scheme = [] ∨ (wfSchemeB r.scheme = true ∧ pyLower r.scheme = r.scheme)) ∧
    (∀ c ∈ r.netloc, c ≠ '/' ∧ c ≠ '?' ∧ c ≠ '#' ∧ isUnsafeUrlChar c = false) ∧
    (∀ c ∈ r.path, pathSafeChar c = true) ∧
    (∀ c ∈ r.params, pathSafeChar c = true) ∧
    (∀ c ∈ r.query, querySafeChar c = true) ∧
    (∀ c ∈ r.fragment, isUnsafeUrlChar c = false) ∧
    (r.netloc ≠ [] → r.path = [] ∨ r.path.headD ' ' = '/') := by
  unfold urlparse at h
  rcases hsp : urlsplit url0 with e | s
  · rw [hsp] at h
    exact Except.noConfusion (h : (Except.error e : Except PyErr ParseResult) = Except.ok r)
  · rw [hsp] at h
    obtain ⟨hsch, hnet, hpath, hq, hf, hhead⟩ := urlsplit_ok_facts hsp
    have h' : (if s.scheme ∈ uses_params ∧ ';' ∈ s.path then
        (pure ⟨s.scheme, s.netloc, (splitparams s.path).1, (splitparams s.path).2,
          s.query, s.fragment⟩ : Except PyErr ParseResult)
      else pure ⟨s.scheme, s.netloc, s.path, [], s.query, s.fragment⟩) = .ok r := h
    by_cases hcond : s.scheme ∈ uses_params ∧ ';' ∈ s.path
    · rw [if_pos hcond] at h'
      have hr : r = ⟨s.scheme, s.netloc, (splitparams s.path).1, (splitparams s.path).2,
          s.query, s.fragment⟩ := by
        cases h'
        rfl
      subst hr
      obtain ⟨hsub1, hsub2, hhd⟩ := splitparams_facts s.path
      refine ⟨hsch, hnet, ?_, ?_, hq, hf, ?_⟩
      · exact fun c hc => hpath c (hsub1 c hc)
      · exact fun c hc => hpath c (hsub2 c hc)
      · intro hn
        rcases hhead hn with hp | hp
        · left
          show (splitparams s.path).1 = []
          rw [hp]
          rfl
        · exact hhd hp
    · rw [if_neg hcond] at h'
      have hr : r = ⟨s.scheme, s.netloc, s.path, [], s.query, s.fragment⟩ := by
        cases h'
        rfl
      subst hr
      exact ⟨hsch, hnet, hpath, fun c hc => absurd hc (List.not_mem_nil c), hq, hf, hhead⟩

/-- Round trip at the `urlparse` level: a parse result with empty params,
well-formed lowercase scheme, nonempty clean netloc, absolute clean
semicolon-free path, and clean query and fragment reparses exactly. -/
theorem urlparse_unparse (s n u q f : List Char)
    (hs : s = [] ∨ wfSchemeB s = true) (hlow : pyLower s = s)
    (hn : n ≠ []) (hnc : ∀ c ∈ n, netlocSafeChar c = true)
    (hu : u = [] ∨ u.headD ' ' = '/') (huc : ∀ c ∈ u, pathSafeChar c = true)
    (husemi : ';' ∉ u)
    (hqc : ∀ c ∈ q, querySafeChar c = true)
    (hfc : ∀ c ∈ f, isUnsafeUrlChar c = false) :
    urlparse (urlunparse ⟨s, n, u, [], q, f⟩) = .ok ⟨s, n, u, [], q, f⟩ := by
  have hunp : urlunparse ⟨s, n, u, [], q, f⟩ = urlunsplit s n u q f := by
    unfold urlunparse
    simp
  rw [hunp]
  unfold urlparse
  rw [urlsplit_unsplit s n u q f hs hn hnc hu huc hqc hfc, hlow]
  have hcond : ¬ (s ∈ uses_params ∧ ';' ∈ u) := fun hc => husemi hc.2
  have hfin : (if s ∈ uses_params ∧ ';' ∈ u then
      (pure ⟨s, n, (splitparams u).1, (splitparams u).2, q, f⟩ : Except PyErr ParseResult)
    else pure ⟨s, n, u, [], q, f⟩) = .ok ⟨s, n, u, [], q, f⟩ := by
    rw [if_neg hcond]
    rfl
  exact hfin

theorem insert_credentials_eq (url username password : String) (r : ParseResult)
    (prt : Option Nat)
    (hp : urlparse url.data = .ok r) (hprt : portOf r.netloc = .ok prt) :
    insert_credentials url username password =
      .ok ⟨urlunparse { r with netloc :=
        username.data ++ ':' :: password.data ++ '@' ::
          ((match hostnameOf r.netloc with
            | some h => h
            | none => "None".data) ++ portText prt) }⟩ := by
  unfold insert_credentials
  rw [hp, show (Except.ok r : Except PyErr ParseResult) = pure r from rfl, pure_bind]
  cases prt with
  | none =>
    rw [hprt]
    show Except.ok (⟨urlunparse { r with netloc :=
        username.data ++ ':' :: password.data ++ '@' ::
          (match hostnameOf r.netloc with
           | some h => h
           | none => "None".data) }⟩ : String) =
      Except.ok (⟨urlunparse { r with netloc :=
        username.data ++ ':' :: password.data ++ '@' ::
          ((match hostnameOf r.netloc with
            | some h => h
            | none => "None".data) ++ portText none) }⟩ : String)
    rw [show portText none = [] from rfl, List.append_nil]
  | some p =>
    rw [hprt]
    show Except.ok (⟨urlunparse { r with netloc :=
        if p ≠ 0 then
          (username.data ++ ':' :: password.data ++ '@' ::
            (match hostnameOf r.netloc with
             | some h => h
             | none => "None".data)) ++ ':' :: natRepr p
        else
          username.data ++ ':' :: password.data ++ '@' ::
            (match hostnameOf r.netloc with
             | some h => h
             | none => "None".data) }⟩ : String) =
      Except.ok (⟨urlunparse { r with netloc :=
        username.data ++ ':' :: password.data ++ '@' ::
          ((match hostnameOf r.netloc with
            | some h => h
            | none => "None".data) ++ portText (some p)) }⟩ : String)
    by_cases hz : p = 0
    · subst hz
      rw [if_neg (by simp), show portText (some 0) = [] from rfl, List.append_nil]
    · rw [if_pos hz, show portText (some p) = if p ≠ 0 then ':' :: natRepr p else [] from rfl,
        if_pos hz]
      simp [List.append_assoc]

theorem hostinfo_userinfo (info rest : List Char) (h : '@' ∉ rest) :
    hostinfo (info ++ '@' :: rest) = hostinfo rest := by
  unfold hostinfo
  rw [rpartitionC_append h, rpartitionC_not_mem h]

theorem hostnameOf_userinfo (info rest : List Char) (h : '@' ∉ rest) :
    hostnameOf (info ++ '@' :: rest) = hostnameOf rest := by
  unfold hostnameOf
  rw [hostinfo_userinfo info rest h]

theorem portOf_userinfo (info rest : List Char) (h : '@' ∉ rest) :
    portOf (info ++ '@' :: rest) = portOf rest := by
  unfold portOf
  rw [hostinfo_userinfo info rest h]

theorem hostinfo_plain (host : List Char) (ha : '@' ∉ host) (hbr : '[' ∉ host)
    (hc : ':' ∉ host) :
    hostinfo host = (host, none) := by
  unfold hostinfo
  rw [rpartitionC_not_mem ha]
  dsimp only
  rw [partitionC_not_mem hbr, partitionC_not_mem hc]
  rfl

theorem hostinfo_hostport (host : List Char) (p : Nat) (ha : '@' ∉ host)
    (hbr : '[' ∉ host) (hc : ':' ∉ host) :
    hostinfo (host ++ ':' :: natRepr p) = (host, some (natRepr p)) := by
  have hd := natRepr_digitRange p
  have ha2 : '@' ∉ host ++ ':' :: natRepr p := by
    intro hm
    rcases List.mem_append.mp hm with hm | hm
    · exact ha hm
    · rcases List.mem_cons.mp hm with he | hm
      · exact absurd he (by decide)
      · have h64 : ('@' : Char).toNat = 64 := by decide
        have := hd _ hm
        omega
  have hbr2 : '[' ∉ host ++ ':' :: natRepr p := by
    intro hm
    rcases List.mem_append.mp hm with hm | hm
    · exact hbr hm
    · rcases List.mem_cons.mp hm with he | hm
      · exact absurd he (by decide)
      · have h91 : ('[' : Char).toNat = 91 := by decide
        have := hd _ hm
        omega
  unfold hostinfo
  rw [rpartitionC_not_mem ha2]
  dsimp only
  rw [partitionC_not_mem hbr2, partitionC_append hc]
  dsimp only
  rw [if_neg (natRepr_ne_nil p)]

theorem hostnameOf_plain (host : List Char) (hne : host ≠ []) (ha : '@' ∉ host)
    (hbr : '[' ∉ host) (hc : ':' ∉ host) (hpc : '%' ∉ host) :
    hostnameOf host = some (pyLower host) := by
  unfold hostnameOf
  rw [hostinfo_plain host ha hbr hc]
  dsimp only
  rw [if_neg hne, partitionC_not_mem hpc]
  simp

theorem hostnameOf_hostport (host : List Char) (p : Nat) (hne : host ≠ [])
    (ha : '@' ∉ host) (hbr : '[' ∉ host) (hc : ':' ∉ host) (hpc : '%' ∉ host) :
    hostnameOf (host ++ ':' :: natRepr p) = some (pyLower host) := by
  unfold hostnameOf
  rw [hostinfo_hostport host p ha hbr hc]
  dsimp only
  rw [if_neg hne, partitionC_not_mem hpc]
  simp

theorem portOf_plain (host : List Char) (ha : '@' ∉ host) (hbr : '[' ∉ host)
    (hc : ':' ∉ host) :
    portOf host = .ok none := by
  unfold portOf
  rw [hostinfo_plain host ha hbr hc]

theorem portOf_hostport (host : List Char) (p : Nat) (hle : p ≤ 65535)
    (ha : '@' ∉ host) (hbr : '[' ∉ host) (hc : ':' ∉ host) :
    portOf (host ++ ':' :: natRepr p) = .ok (some p) := by
  unfold portOf
  rw [hostinfo_hostport host p ha hbr hc]
  dsimp only
  rw [if_pos ⟨natRepr_ne_nil p, List.all_eq_true.mpr (natRepr_isDigit p)⟩,
    digitsToNat_natRepr, if_pos hle]

theorem hostinfo_nobracket (nl : List Char) (hbr : '[' ∉ (rpartitionC '@' nl).2.2) :
    hostinfo nl = ((partitionC ':' ((rpartitionC '@' nl).2.2)).1,
      if (partitionC ':' ((rpartitionC '@' nl).2.2)).2.2 = [] then none
      else some ((partitionC ':' ((rpartitionC '@' nl).2.2)).2.2)) := by
  unfold hostinfo
  dsimp only
  rw [partitionC_not_mem hbr]

/-- The host text extracted by `hostname` inherits the safety of the netloc
it came from (the extraction only splits the netloc and ASCII-lowercases,
which preserves every `netlocSafeChar`). -/
theorem hostnameOf_safe {nl h : List Char}
    (hnc : ∀ c ∈ nl, netlocSafeChar c = true)
    (hh : hostnameOf nl = some h) :
    ∀ c ∈ h, netlocSafeChar c = true := by
  have hhi : ∀ c ∈ (rpartitionC '@' nl).2.2, netlocSafeChar c = true :=
    fun c hc => hnc c (rpartitionC_trd_subset '@' nl c hc)
  have hbr : '[' ∉ (rpartitionC '@' nl).2.2 := by
    intro hm
    exact (netlocSafeChar_props (hhi '[' hm)).2.2.2.1 rfl
  have hhn : ∀ c ∈ (hostinfo nl).1, netlocSafeChar c = true := by
    rw [hostinfo_nobracket nl hbr]
    exact fun c hc => hhi c (partitionC_fst_subset ':' _ c hc)
  unfold hostnameOf at hh
  by_cases hz : (hostinfo nl).1 = []
  · rw [if_pos hz] at hh
    cases hh
  · rw [if_neg hz] at hh
    rcases hpz : partitionC '%' ((hostinfo nl).1) with ⟨h1, found, zone⟩
    rw [hpz] at hh
    have hfst : ∀ c ∈ h1, netlocSafeChar c = true := by
      intro c hc
      apply hhn
      apply partitionC_fst_subset '%' ((hostinfo nl).1)
      rw [hpz]
      exact hc
    have htrd : ∀ c ∈ zone, netlocSafeChar c = true := by
      intro c hc
      apply hhn
      apply partitionC_trd_subset '%' ((hostinfo nl).1)
      rw [hpz]
      exact hc
    have hh' : pyLower h1 ++ (if found then '%' :: zone else []) = h := by
      cases hh
      rfl
    intro c hc
    rw [← hh'] at hc
    rcases List.mem_append.mp hc with hc | hc
    · rcases List.mem_map.mp hc with ⟨c0, hc0, rfl⟩
      exact pyLowerChar_netlocSafe (hfst c0 hc0)
    · cases found
      · cases hc
      · rcases List.mem_cons.mp hc with rfl | hc
        · decide
        · exact htrd c hc

theorem char_toNat_lt (c : Char) : c.toNat < 0x110000 := by
  have hv := c.valid
  have he : c.toNat = c.val.toNat := rfl
  rcases hv with h | ⟨h1, h2⟩ <;> omega

theorem utf8EncodeChar_lt_256 (c : Char) : ∀ b ∈ utf8EncodeChar c, b < 256 := by
  have hv := char_toNat_lt c
  unfold utf8EncodeChar
  dsimp only
  by_cases h1 : c.toNat < 0x80
  · rw [if_pos h1]
    intro b hb
    rcases List.mem_singleton.mp hb with rfl
    omega
  · rw [if_neg h1]
    by_cases h2 : c.toNat < 0x800
    · rw [if_pos h2]
      intro b hb
      rcases List.mem_cons.mp hb with rfl | hb
      · omega
      · rcases List.mem_singleton.mp hb with rfl
        omega
    · rw [if_neg h2]
      by_cases h3 : c.toNat < 0x10000
      · rw [if_pos h3]
        intro b hb
        rcases List.mem_cons.mp hb with rfl | hb
        · omega
        · rcases List.mem_cons.mp hb with rfl | hb
          · omega
          · rcases List.mem_singleton.mp hb with rfl
            omega
      · rw [if_neg h3]
        intro b hb
        rcases List.mem_cons.mp hb with rfl | hb
        · omega
        · rcases List.mem_cons.mp hb with rfl | hb
          · omega
          · rcases List.mem_cons.mp hb with rfl | hb
            · omega
            · rcases List.mem_singleton.mp hb with rfl
              omega

theorem querySafe_of_toNat {c : Char} (h35 : c.toNat ≠ 35) (h9 : c.toNat ≠ 9)
    (h13 : c.toNat ≠ 13) (h10 : c.toNat ≠ 10) : querySafeChar c = true := by
  have e35 : ('#' : Char).toNat = 35 := by decide
  have e9 : ('\t' : Char).toNat = 9 := by decide
  have e13 : ('\r' : Char).toNat = 13 := by decide
  have e10 : ('\n' : Char).toNat = 10 := by decide
  simp only [querySafeChar, isUnsafeUrlChar, Bool.and_eq_true, decide_eq_true_eq,
    Bool.not_eq_true', decide_eq_false_iff_not]
  constructor
  · intro he
    exact h35 ((congrArg Char.toNat he).trans e35)
  · rintro (he | he | he)
    · exact h9 ((congrArg Char.toNat he).trans e9)
    · exact h13 ((congrArg Char.toNat he).trans e13)
    · exact h10 ((congrArg Char.toNat he).trans e10)

theorem hexDigitUpper_querySafe {n : Nat} (h : n < 16) :
    querySafeChar (hexDigitUpper n) = true := by
  have e48 : ('0' : Char).toNat = 48 := by decide
  have e65 : ('A' : Char).toNat = 65 := by decide
  unfold hexDigitUpper
  by_cases h10 : n < 10
  · rw [if_pos h10]
    have ht : (Char.ofNat ('0'.toNat + n)).toNat = '0'.toNat + n := toNat_ofNat_lt (by omega)
    exact querySafe_of_toNat (by omega) (by omega) (by omega) (by omega)
  · rw [if_neg h10]
    have ht : (Char.ofNat ('A'.toNat + n - 10)).toNat = 'A'.toNat + n - 10 :=
      toNat_ofNat_lt (by omega)
    exact querySafe_of_toNat (by omega) (by omega) (by omega) (by omega)

theorem quoteByte_querySafe (safe : List Nat) (hs : ∀ b ∈ safe, b = 32) (b : Nat)
    (hb : b < 256) : ∀ c ∈ quoteByte safe b, querySafeChar c = true := by
  intro c hc
  unfold quoteByte at hc
  by_cases hcond : alwaysSafe b = true ∨ b ∈ safe
  · rw [if_pos hcond] at hc
    rcases List.mem_singleton.mp hc with rfl
    have ht : (Char.ofNat b).toNat = b := toNat_ofNat_lt (by omega)
    rcases hcond with hsafe | hmem
    · have : (0x41 ≤ b ∧ b ≤ 0x5a) ∨ (0x61 ≤ b ∧ b ≤ 0x7a) ∨ (0x30 ≤ b ∧ b ≤ 0x39) ∨
          b = '_'.toNat ∨ b = '.'.toNat ∨ b = '-'.toNat ∨ b = '~'.toNat := by
        simpa [alwaysSafe] using hsafe
      have e95 : ('_' : Char).toNat = 95 := by decide
      have e46 : ('.' : Char).toNat = 46 := by decide
      have e45 : ('-' : Char).toNat = 45 := by decide
      have e126 : ('~' : Char).toNat = 126 := by decide
      exact querySafe_of_toNat (by omega) (by omega) (by omega) (by omega)
    · have hb32 := hs b hmem
      exact querySafe_of_toNat (by omega) (by omega) (by omega) (by omega)
  · rw [if_neg hcond] at hc
    rcases List.mem_cons.mp hc with rfl | hc
    · decide
    · rcases List.mem_cons.mp hc with rfl | hc
      · exact hexDigitUpper_querySafe (by omega)
      · rcases List.mem_singleton.mp hc with rfl
        exact hexDigitUpper_querySafe (by omega)

theorem quote_querySafe (safe : List Nat) (hs : ∀ b ∈ safe, b = 32) (l : List Char) :
    ∀ c ∈ quote safe l, querySafeChar c = true := by
  intro c hc
  unfold quote at hc
  rcases List.mem_flatten.mp hc with ⟨chunk, hchunk, hcc⟩
  rcases List.mem_map.mp hchunk with ⟨b, hbmem, rfl⟩
  have hb256 : b < 256 := by
    unfold utf8Encode at hbmem
    rcases List.mem_flatten.mp hbmem with ⟨bs, hbs, hbb⟩
    rcases List.mem_map.mp hbs with ⟨c0, _, rfl⟩
    exact utf8EncodeChar_lt_256 c0 b hbb
  exact quoteByte_querySafe safe hs b hb256 c hcc

theorem quote_plus_querySafe (l : List Char) :
    ∀ c ∈ quote_plus l, querySafeChar c = true := by
  intro c hc
  unfold quote_plus at hc
  by_cases hsp : ' ' ∈ l
  · rw [if_neg (by simpa using hsp)] at hc
    rcases List.mem_map.mp hc with ⟨c0, hc0, rfl⟩
    by_cases he : c0 = ' '
    · rw [if_pos he]
      decide
    · rw [if_neg he]
      exact quote_querySafe [' '.toNat] (fun b hb => by simpa using hb) l c0 hc0
  · rw [if_pos hsp] at hc
    exact quote_querySafe [] (fun b hb => absurd hb (List.not_mem_nil b)) l c hc

theorem mem_intersperse {α : Type} {x sep : α} (l : List α)
    (h : x ∈ List.intersperse sep l) : x ∈ l ∨ x = sep := by
  induction l with
  | nil => cases h
  | cons a t ih =>
    cases t with
    | nil => exact Or.inl (by simpa using h)
    | cons b t2 =>
      have he : List.intersperse sep (a :: b :: t2) = a :: sep :: List.intersperse sep (b :: t2) :=
        rfl
      rw [he] at h
      rcases List.mem_cons.mp h with rfl | h
      · exact Or.inl (List.mem_cons_self _ _)
      · rcases List.mem_cons.mp h with rfl | h
        · exact Or.inr rfl
        · rcases ih h with h2 | h2
          · exact Or.inl (List.mem_cons.mpr (Or.inr h2))
          · exact Or.inr h2

theorem urlencode_querySafe (q : List (List Char × List Char)) :
    ∀ c ∈ urlencode q, querySafeChar c = true := by
  intro c hc
  unfold urlencode at hc
  rcases List.mem_flatten.mp hc with ⟨chunk, hchunk, hcc⟩
  rcases mem_intersperse _ hchunk with hmem | rfl
  · rcases List.mem_map.mp hmem with ⟨kv, _, rfl⟩
    rcases List.mem_append.mp hcc with hcc | hcc
    · exact quote_plus_querySafe _ c hcc
    · rcases List.mem_cons.mp hcc with rfl | hcc
      · decide
      · exact quote_plus_querySafe _ c hcc
  · rcases List.mem_singleton.mp hcc with rfl
    decide

theorem buildPath_head (e : Endpoint) :
    buildPath e ≠ [] ∧ (buildPath e).headD ' ' = '/' := by
  unfold buildPath
  by_cases h : e.path.data.headD ' ' = '/'
  · rw [if_pos h]
    refine ⟨?_, h⟩
    intro hnil
    rw [hnil] at h
    exact absurd h (by decide)
  · rw [if_neg h]
    exact ⟨by simp, rfl⟩

theorem buildPath_safe (e : Endpoint) (hpc : ∀ c ∈ e.path.data, pathSafeChar c = true) :
    ∀ c ∈ buildPath e, pathSafeChar c = true := by
  intro c hc
  unfold buildPath at hc
  by_cases h : e.path.data.headD ' ' = '/'
  · rw [if_pos h] at hc
    exact hpc c hc
  · rw [if_neg h] at hc
    rcases List.mem_cons.mp hc with rfl | hc
    · decide
    · exact hpc c hc

theorem buildPath_nosemi (e : Endpoint) (hsemi : ';' ∉ e.path.data) :
    ';' ∉ buildPath e := by
  intro hc
  unfold buildPath at hc
  by_cases h : e.path.data.headD ' ' = '/'
  · rw [if_pos h] at hc
    exact hsemi hc
  · rw [if_neg h] at hc
    rcases List.mem_cons.mp hc with he | hc
    · exact absurd he (by decide)
    · exact hsemi hc

theorem buildNetloc_safe (e : Endpoint) (hnc : ∀ c ∈ e.host.data, netlocSafeChar c = true) :
    ∀ c ∈ buildNetloc e, netlocSafeChar c = true := by
  intro c hc
  unfold buildNetloc at hc
  by_cases h : e.port ≠ 0
  · rw [if_pos h] at hc
    rcases List.mem_append.mp hc with hc | hc
    · exact hnc c hc
    · rcases List.mem_cons.mp hc with rfl | hc
      · decide
      · exact natRepr_netlocSafe e.port c hc
  · rw [if_neg h] at hc
    exact hnc c hc

theorem buildNetloc_ne_nil (e : Endpoint) (h : e.host.data ≠ [] ∨ e.port ≠ 0) :
    buildNetloc e ≠ [] := by
  unfold buildNetloc
  by_cases hp : e.port ≠ 0
  · rw [if_pos hp]
    intro hnil
    rcases List.append_eq_nil.mp hnil with ⟨_, h2⟩
    cases h2
  · rw [if_neg hp]
    rcases h with h | h
    · exact h
    · exact absurd h hp

theorem buildQuery_querySafe (e : Endpoint) :
    ∀ c ∈ buildQuery e, querySafeChar c = true := by
  intro c hc
  unfold buildQuery at hc
  by_cases h : e.query_params ≠ []
  · rw [if_pos h] at hc
    exact urlencode_querySafe _ c hc
  · rw [if_neg h] at hc
    cases hc

/-- `build_url` output reparses to exactly its construction pieces: a
well-formed lowercase protocol, the `host[:port]` netloc, the
slash-normalized path, no params, and the encoded query. -/
theorem build_url_parse (e : Endpoint)
    (hs : e.protocol.data = [] ∨ wfSchemeB e.protocol.data = true)
    (hlow : pyLower e.protocol.data = e.protocol.data)
    (hn : e.host.data ≠ [] ∨ e.port ≠ 0)
    (hnc : ∀ c ∈ e.host.data, netlocSafeChar c = true)
    (hpc : ∀ c ∈ e.path.data, pathSafeChar c = true)
    (hsemi : ';' ∉ e.path.data) :
    urlparse (build_url e).data =
      .ok ⟨e.protocol.data, buildNetloc e, buildPath e, [], buildQuery e, []⟩ := by
  have hbu : (build_url e).data =
      urlunparse ⟨e.protocol.data, buildNetloc e, buildPath e, [], buildQuery e, []⟩ := rfl
  rw [hbu]
  exact urlparse_unparse _ _ _ _ _ hs hlow (buildNetloc_ne_nil e hn) (buildNetloc_safe e hnc)
    (Or.inr (buildPath_head e).2) (buildPath_safe e hpc) (buildPath_nosemi e hsemi)
    (buildQuery_querySafe e) (fun c hc => absurd hc (List.not_mem_nil c))

theorem callback_eq (fresh : String) (m : RTSPRequest) :
    callback fresh m =
      match (match m.auth with
        | Auth.noAuth => Except.ok (build_url m.endpoint)
        | Auth.basic u p => insert_credentials (build_url m.endpoint) u p
        | Auth.digest u p => insert_credentials (build_url m.endpoint) u p :
          Except PyErr String) with
      | .error e => ([], .error e)
      | .ok url2 => ([⟨url2, fresh ++ ".mkv", m⟩], .ok ⟨headerFrom m "success", true⟩) := rfl

/-- C1: whenever the dispatch callback returns an acknowledgment, its success
flag is `true` and its header is the request's correlation header extended by
`"success"`; the acknowledgment is the synchronous component of
`submit_and_run` and is identical under every world oracle, i.e. independent
of the eventual recording outcome. -/
theorem C1_ack_true_independent (w w' : World) (fresh : String) (m : RTSPRequest)
    (jobs : List Job) (b : BoolMsg)
    (h : callback fresh m = (jobs, .ok b)) :
    b.value = true ∧ b.header = headerFrom m "success" ∧
    (submit_and_run w fresh m).1 = (jobs, .ok b) ∧
    (submit_and_run w fresh m).1 = (submit_and_run w' fresh m).1 := by
  have hb : b = ⟨headerFrom m "success", true⟩ := by
    rw [callback_eq] at h
    rcases hm : (match m.auth with
      | Auth.noAuth => Except.ok (build_url m.endpoint)
      | Auth.basic u p => insert_credentials (build_url m.endpoint) u p
      | Auth.digest u p => insert_credentials (build_url m.endpoint) u p :
        Except PyErr String) with e | u2
    · rw [hm] at h
      have h2 : (Except.error e : Except PyErr BoolMsg) = .ok b := congrArg Prod.snd h
      exact absurd h2 (by simp)
    · rw [hm] at h
      have h2 : (Except.ok ⟨headerFrom m "success", true⟩ : Except PyErr BoolMsg) = .ok b :=
        congrArg Prod.snd h
      injection h2 with h3
      exact h3.symm
  subst hb
  exact ⟨rfl, rfl, by rw [show (submit_and_run w fresh m).1 = callback fresh m from rfl, h], rfl⟩

theorem C1_witness :
    (⟨["success"], true⟩ : BoolMsg).value = true ∧
    (⟨["success"], true⟩ : BoolMsg).header = headerFrom sampleMsg "success" ∧
    (submit_and_run ⟨RunOutcome.success, some []⟩ "f" sampleMsg).1 =
      ([⟨"rtsp://cam/a/b/c", "f.mkv", sampleMsg⟩], .ok ⟨["success"], true⟩) ∧
    (submit_and_run ⟨RunOutcome.success, some []⟩ "f" sampleMsg).1 =
      (submit_and_run ⟨RunOutcome.launchFailure "e", none⟩ "f" sampleMsg).1 :=
  C1_ack_true_independent ⟨RunOutcome.success, some []⟩ ⟨RunOutcome.launchFailure "e", none⟩
    "f" sampleMsg [⟨"rtsp://cam/a/b/c", "f.mkv", sampleMsg⟩] ⟨["success"], true⟩ rfl

/-- C2 counterexample: on an endpoint whose host text carries a non-numeric
port (`"h:x"`), credential insertion raises, the callback propagates the
exception, and the caller receives no acknowledgment at all — in particular
not `Acknowledgment{success=false}` as the spec promises. -/
theorem C2_counterexample :
    callback "f" badPortMsg =
      ([], .error (.valueError "Port could not be cast to integer value")) := rfl

/-- C2 (amended): a URL-construction failure is surfaced synchronously — no
job is enqueued and nothing ever runs in the pool — but the callback
re-raises the exception instead of returning an acknowledgment with
`success=false`; construction without credentials never fails, so the error
can only come from `insert_credentials`. -/
theorem C2_sync_failure (w : World) (fresh : String) (m : RTSPRequest) (e : PyErr)
    (h : (callback fresh m).2 = .error e) :
    callback fresh m = ([], .error e) ∧
    submit_and_run w fresh m = (([], .error e), []) ∧
    m.auth ≠ Auth.noAuth := by
  have h1 : callback fresh m = ([], .error e) := by
    rw [callback_eq] at h ⊢
    rcases hm : (match m.auth with
      | Auth.noAuth => Except.ok (build_url m.endpoint)
      | Auth.basic u p => insert_credentials (build_url m.endpoint) u p
      | Auth.digest u p => insert_credentials (build_url m.endpoint) u p :
        Except PyErr String) with e2 | u2
    · rw [hm] at h
      have h2 : (Except.error e2 : Except PyErr BoolMsg) = .error e := h
      injection h2 with h3
      rw [h3]
    · rw [hm] at h
      exact absurd (h : (Except.ok ⟨headerFrom m "success", true⟩ :
        Except PyErr BoolMsg) = .error e) (by simp)
  refine ⟨h1, ?_, ?_⟩
  · unfold submit_and_run
    rw [h1]
    rfl
  · intro hauth
    rw [callback_eq, hauth] at h
    exact absurd (h : (Except.ok ⟨headerFrom m "success", true⟩ :
      Except PyErr BoolMsg) = .error e) (by simp)

theorem C2_witness :
    callback "f" badPortMsg =
      ([], .error (.valueError "Port could not be cast to integer value")) ∧
    submit_and_run ⟨RunOutcome.success, some []⟩ "f" badPortMsg =
      (([], .error (.valueError "Port could not be cast to integer value")), []) ∧
    badPortMsg.auth ≠ Auth.noAuth :=
  C2_sync_failure ⟨RunOutcome.success, some []⟩ "f" badPortMsg
    (.valueError "Port could not be cast to integer value") rfl

/-- C3 counterexample: a launch failure of the external process is not
recovered — only `CalledProcessError` is caught — so the exception escapes
the worker and no outcome is forwarded to the upload collaborator, although
the same job's path transforms cleanly. -/
theorem C3_counterexample :
    ffmpeg_thread ⟨RunOutcome.launchFailure "ffmpeg: not found", none⟩ goodUrl "f.mkv"
        sampleMsg =
      ([], .error (.osError "ffmpeg: not found")) ∧
    transform_url goodUrl = .ok "c/1_2.mkv" := ⟨rfl, rfl⟩

/-- C3 (amended): a non-zero exit of the recording process is recovered
locally: the worker completes normally and still forwards one outcome with an
absent payload (`data=None`) to the upload collaborator, provided the
reported-path derivation succeeds. -/
theorem C3_nonzero_exit_recovered (w : World) (url output_file : String) (m : RTSPRequest)
    (s : String) (pth : String)
    (hrun : w.run = RunOutcome.nonzeroExit s)
    (ht : transform_url url = .ok pth) :
    ffmpeg_thread w url output_file m = ([⟨headerFrom m "upload", none, pth⟩], .ok ()) := by
  unfold ffmpeg_thread
  rw [hrun, ht]

theorem C3_witness :
    ffmpeg_thread ⟨RunOutcome.nonzeroExit "exit status 1", none⟩ goodUrl "f.mkv" sampleMsg =
      ([⟨headerFrom sampleMsg "upload", none, "c/1_2.mkv"⟩], .ok ()) :=
  C3_nonzero_exit_recovered ⟨RunOutcome.nonzeroExit "exit status 1", none⟩ goodUrl "f.mkv"
    sampleMsg "exit status 1" "c/1_2.mkv" rfl rfl

theorem hostSafeChar_props {c : Char} (h : hostSafeChar c = true) :
    netlocSafeChar c = true ∧ c ≠ '@' ∧ c ≠ ':' ∧ c ≠ '%' := by
  simpa [hostSafeChar, Bool.and_eq_true, decide_eq_true_eq] using h

theorem credNetloc_assoc (username password : String) (host : List Char) (prt : Option Nat) :
    credNetloc username password host prt =
      (username.data ++ ':' :: password.data) ++ '@' :: (host ++ portText prt) := by
  unfold credNetloc
  simp [List.append_assoc]

theorem portText_chars (prt : Option Nat) :
    ∀ c ∈ portText prt, c = ':' ∨ (48 ≤ c.toNat ∧ c.toNat ≤ 57) := by
  intro c hc
  cases prt with
  | none => cases hc
  | some p =>
    rw [show portText (some p) = if p ≠ 0 then ':' :: natRepr p else [] from rfl] at hc
    by_cases hz : p ≠ 0
    · rw [if_pos hz] at hc
      rcases List.mem_cons.mp hc with rfl | hc
      · exact Or.inl rfl
      · exact Or.inr (natRepr_digitRange p c hc)
    · rw [if_neg hz] at hc
      cases hc

theorem portText_netlocSafe (prt : Option Nat) :
    ∀ c ∈ portText prt, netlocSafeChar c = true := by
  intro c hc
  cases prt with
  | none => cases hc
  | some p =>
    rw [show portText (some p) = if p ≠ 0 then ':' :: natRepr p else [] from rfl] at hc
    by_cases hz : p ≠ 0
    · rw [if_pos hz] at hc
      rcases List.mem_cons.mp hc with rfl | hc
      · decide
      · exact natRepr_netlocSafe p c hc
    · rw [if_neg hz] at hc
      cases hc

theorem credNetloc_ne_nil (username password : String) (host : List Char)
    (prt : Option Nat) : credNetloc username password host prt ≠ [] := by
  unfold credNetloc
  intro hnil
  rcases List.append_eq_nil.mp hnil with ⟨_, h2⟩
  cases h2

theorem credNetloc_safe (username password : String) (host : List Char) (prt : Option Nat)
    (hu : ∀ c ∈ username.data, netlocSafeChar c = true)
    (hpw : ∀ c ∈ password.data, netlocSafeChar c = true)
    (hhost : ∀ c ∈ host, netlocSafeChar c = true) :
    ∀ c ∈ credNetloc username password host prt, netlocSafeChar c = true := by
  intro c hc
  unfold credNetloc at hc
  rcases List.mem_append.mp hc with hc | hc
  · rcases List.mem_append.mp hc with hc | hc
    · exact hu c hc
    · rcases List.mem_cons.mp hc with rfl | hc
      · decide
      · exact hpw c hc
  · rcases List.mem_cons.mp hc with rfl | hc
    · decide
    · rcases List.mem_append.mp hc with hc | hc
      · exact hhost c hc
      · exact portText_netlocSafe prt c hc

/-- Shared core of the `insert_credentials` claims: on a URL that parses with
a nonempty bracket-free clean authority, a present host, and a valid port,
the function succeeds with netloc `username:password@host[:port]`, and the
output reparses with that authority and the scheme, path, query and fragment
of the input. -/
theorem insert_reparse (url username password : String) (r : ParseResult) (h0 : List Char)
    (prt : Option Nat)
    (hp : urlparse url.data = .ok r)
    (hh : hostnameOf r.netloc = some h0)
    (hprt : portOf r.netloc = .ok prt)
    (hn : r.netloc ≠ [])
    (hnc : ∀ c ∈ r.netloc, netlocSafeChar c = true)
    (hu : ∀ c ∈ username.data, netlocSafeChar c = true)
    (hpw : ∀ c ∈ password.data, netlocSafeChar c = true)
    (hsemi : ';' ∉ r.path) (hparams : r.params = []) :
    insert_credentials url username password =
      .ok ⟨urlunparse ⟨r.scheme, credNetloc username password h0 prt,
        r.path, [], r.query, r.fragment⟩⟩ ∧
    urlparse (urlunparse ⟨r.scheme, credNetloc username password h0 prt,
        r.path, [], r.query, r.fragment⟩) =
      .ok ⟨r.scheme, credNetloc username password h0 prt, r.path, [], r.query, r.fragment⟩ := by
  obtain ⟨hsch, hnloc, hpath, hprm, hq, hf, hhead⟩ := urlparse_ok_facts hp
  have hh0 : ∀ c ∈ h0, netlocSafeChar c = true := hostnameOf_safe hnc hh
  have hins := insert_credentials_eq url username password r prt hp hprt
  rw [hh] at hins
  have hs : r.scheme = [] ∨ wfSchemeB r.scheme = true := by
    rcases hsch with h1 | ⟨h1, _⟩
    · exact Or.inl h1
    · exact Or.inr h1
  have hlow : pyLower r.scheme = r.scheme := by
    rcases hsch with h1 | ⟨_, h2⟩
    · rw [h1]
      rfl
    · exact h2
  constructor
  · have hrec : ({ r with netloc := username.data ++ ':' :: password.data ++ '@' ::
        (h0 ++ portText prt) } : ParseResult) =
        ⟨r.scheme, credNetloc username password h0 prt, r.path, [], r.query, r.fragment⟩ := by
      obtain ⟨rs, rn, rp, rprm, rq, rf⟩ := r
      have hprm0 : rprm = [] := hparams
      subst hprm0
      rfl
    rw [← hrec]
    exact hins
  · exact urlparse_unparse r.scheme (credNetloc username password h0 prt) r.path
      r.query r.fragment hs hlow (credNetloc_ne_nil username password h0 prt)
      (credNetloc_safe username password h0 prt hu hpw hh0)
      (hhead hn) hpath hsemi hq hf

/-- C4 counterexample: on a URL with no authority and a relative path
(`"http:path"`), inserting credentials introduces an authority and the
repaired URL's path gains a leading slash: the path component is not
byte-identical before (`path`) and after (`/path`). -/
theorem C4_counterexample :
    insert_credentials "http:path" "u" "p" = .ok "http://u:p@None/path" ∧
    urlparse "http:path".data = .ok ⟨"http".data, [], "path".data, [], [], []⟩ ∧
    urlparse "http://u:p@None/path".data =
      .ok ⟨"http".data, "u:p@None".data, "/path".data, [], [], []⟩ ∧
    ("path".data : List Char) ≠ "/path".data := ⟨rfl, rfl, rfl, by decide⟩

/-- C4 (amended): for URLs that parse with a nonempty bracket-free clean
authority, a present host, a valid port, clean credential text, and a
semicolon-free path with no params, `insert_credentials` succeeds; the output
reparses with the same scheme, path, query and fragment and with authority
exactly `username:password@host` followed by `:port` when a nonzero port is
present (`credNetloc`). Other inputs may raise or shift the path. -/
theorem C4_frame (url username password : String) (r : ParseResult) (h0 : List Char)
    (prt : Option Nat)
    (hp : urlparse url.data = .ok r)
    (hh : hostnameOf r.netloc = some h0)
    (hprt : portOf r.netloc = .ok prt)
    (hn : r.netloc ≠ [])
    (hnc : ∀ c ∈ r.netloc, netlocSafeChar c = true)
    (hu : ∀ c ∈ username.data, netlocSafeChar c = true)
    (hpw : ∀ c ∈ password.data, netlocSafeChar c = true)
    (hsemi : ';' ∉ r.path) (hparams : r.params = []) :
    insert_credentials url username password =
      .ok ⟨urlunparse ⟨r.scheme, credNetloc username password h0 prt,
        r.path, [], r.query, r.fragment⟩⟩ ∧
    urlparse (urlunparse ⟨r.scheme, credNetloc username password h0 prt,
        r.path, [], r.query, r.fragment⟩) =
      .ok ⟨r.scheme, credNetloc username password h0 prt, r.path, [], r.query, r.fragment⟩ :=
  insert_reparse url username password r h0 prt hp hh hprt hn hnc hu hpw hsemi hparams

theorem C4_witness :
    insert_credentials goodUrl "u" "p" =
      .ok ⟨urlunparse ⟨"rtsp".data, credNetloc "u" "p" "cam".data none,
        "/a/b/c".data, [], "starttime=1&endtime=2".data, []⟩⟩ ∧
    urlparse (urlunparse ⟨"rtsp".data, credNetloc "u" "p" "cam".data none,
        "/a/b/c".data, [], "starttime=1&endtime=2".data, []⟩) =
      .ok ⟨"rtsp".data, credNetloc "u" "p" "cam".data none,
        "/a/b/c".data, [], "starttime=1&endtime=2".data, []⟩ :=
  C4_frame goodUrl "u" "p"
    ⟨"rtsp".data, "cam".data, "/a/b/c".data, [], "starttime=1&endtime=2".data, []⟩
    "cam".data none rfl rfl rfl (by decide) (by decide) (by decide) (by decide)
    (by decide) rfl

/-- C7 counterexample: on a URL whose host is empty, `insert_credentials`
does not fail — it interpolates Python's `None` into the f-string and
produces a URL whose host text is the literal `None`. -/
theorem C7_counterexample :
    insert_credentials "rtsp:///a" "u" "p" = .ok "rtsp://u:p@None/a" ∧
    (urlparse "rtsp:///a".data).map (fun r => hostnameOf r.netloc) = .ok none :=
  ⟨rfl, rfl⟩

/-- C7 (amended): on every URL that parses with an absent host and a valid
port, `insert_credentials` returns a URL (no error) whose authority host
text is the literal `None`. -/
theorem C7_none_host (url username password : String) (r : ParseResult) (prt : Option Nat)
    (hp : urlparse url.data = .ok r)
    (hh : hostnameOf r.netloc = none)
    (hprt : portOf r.netloc = .ok prt) :
    insert_credentials url username password =
      .ok ⟨urlunparse { r with netloc := credNetloc username password "None".data prt }⟩ := by
  have hins := insert_credentials_eq url username password r prt hp hprt
  rw [hh] at hins
  exact hins

theorem C7_witness :
    insert_credentials "rtsp:///a" "u" "p" =
      .ok ⟨urlunparse { (⟨"rtsp".data, [], "/a".data, [], [], []⟩ : ParseResult) with
        netloc := credNetloc "u" "p" "None".data none }⟩ :=
  C7_none_host "rtsp:///a" "u" "p" ⟨"rtsp".data, [], "/a".data, [], [], []⟩ none rfl rfl rfl

/-- C10 counterexample: a bracketed IPv6 host with a scoped zone id keeps the
zone's case — the uppercase `ETH0` of the input host survives into the
output, so the host is not normalized to lowercase. -/
theorem C10_counterexample :
    insert_credentials "rtsp://old@[fe80::1%ETH0]/a" "u" "p" =
      .ok "rtsp://u:p@fe80::1%ETH0/a" ∧
    (urlparse "rtsp://old@[fe80::1%ETH0]/a".data).map (fun r => hostnameOf r.netloc) =
      .ok (some "fe80::1%ETH0".data) ∧
    pyLower "fe80::1%ETH0".data ≠ "fe80::1%ETH0".data := ⟨rfl, rfl, by decide⟩

/-- C10 (amended): on a URL whose parsed authority is `userinfo@host` with a
plain zone-free host, `insert_credentials` discards the existing userinfo
entirely and lowercases the host: the output netloc is
`username:password@<lowercased host>`. The zone suffix of a scoped IPv6
host keeps its case (see the counterexample). -/
theorem C10_lowercase_discard (url username password : String) (r : ParseResult)
    (info rest : List Char)
    (hp : urlparse url.data = .ok r)
    (hnl : r.netloc = info ++ '@' :: rest)
    (hna : '@' ∉ rest) (hrne : rest ≠ [])
    (hrc : ∀ c ∈ rest, hostSafeChar c = true) :
    insert_credentials url username password =
      .ok ⟨urlunparse { r with
        netloc := credNetloc username password (pyLower rest) none }⟩ := by
  have hbr : '[' ∉ rest := fun hm =>
    (netlocSafeChar_props (hostSafeChar_props (hrc '[' hm)).1).2.2.2.1 rfl
  have hcn : ':' ∉ rest := fun hm => (hostSafeChar_props (hrc ':' hm)).2.2.1 rfl
  have hpc : '%' ∉ rest := fun hm => (hostSafeChar_props (hrc '%' hm)).2.2.2 rfl
  have hhost : hostnameOf r.netloc = some (pyLower rest) := by
    rw [hnl, hostnameOf_userinfo info rest hna]
    exact hostnameOf_plain rest hrne hna hbr hcn hpc
  have hport : portOf r.netloc = .ok none := by
    rw [hnl, portOf_userinfo info rest hna]
    exact portOf_plain rest hna hbr hcn
  have hins := insert_credentials_eq url username password r none hp hport
  rw [hhost] at hins
  exact hins

theorem C10_witness :
    insert_credentials "rtsp://old@CAM7/a" "u" "p" =
      .ok ⟨urlunparse { (⟨"rtsp".data, "old@CAM7".data, "/a".data, [], [], []⟩ : ParseResult)
        with netloc := credNetloc "u" "p" (pyLower "CAM7".data) none }⟩ :=
  C10_lowercase_discard "rtsp://old@CAM7/a" "u" "p"
    ⟨"rtsp".data, "old@CAM7".data, "/a".data, [], [], []⟩ "old".data "CAM7".data
    rfl (by decide) (by decide) (by decide) (by decide)

/-- C8 counterexample: a `build_url` host with uppercase letters is not
recovered byte-for-byte — credential insertion lowercases the host, so the
stripped host `cam7` differs from the original `CAM7`. -/
theorem C8_counterexample :
    build_url ⟨"rtsp", "CAM7", 0, "/a", []⟩ = "rtsp://CAM7/a" ∧
    insert_credentials "rtsp://CAM7/a" "u" "p" = .ok "rtsp://u:p@cam7/a" ∧
    (urlparse "rtsp://u:p@cam7/a".data).map (fun r => hostnameOf r.netloc) =
      .ok (some "cam7".data) ∧
    some "cam7".data ≠ some "CAM7".data := ⟨rfl, rfl, rfl, by decide⟩

/-- C8 (amended): for a well-formed endpoint whose host is already
lowercase, building the URL, inserting credentials, and then stripping them
by reparsing recovers the original host exactly and the original port when
it was nonzero; a zero (proto3-absent) port is dropped by both `build_url`
and the recovery. -/
theorem C8_roundtrip (e : Endpoint) (username password : String)
    (hs : wfSchemeB e.protocol.data = true)
    (hlow : pyLower e.protocol.data = e.protocol.data)
    (hne : e.host.data ≠ [])
    (hhc : ∀ c ∈ e.host.data, hostSafeChar c = true)
    (hhlow : pyLower e.host.data = e.host.data)
    (hple : e.port ≤ 65535)
    (hu : ∀ c ∈ username.data, netlocSafeChar c = true)
    (hpw : ∀ c ∈ password.data, netlocSafeChar c = true)
    (hpc : ∀ c ∈ e.path.data, pathSafeChar c = true)
    (hsemi : ';' ∉ e.path.data) :
    insert_credentials (build_url e) username password =
      .ok ⟨urlunparse ⟨e.protocol.data,
        credNetloc username password e.host.data (if e.port ≠ 0 then some e.port else none),
        buildPath e, [], buildQuery e, []⟩⟩ ∧
    urlparse (urlunparse ⟨e.protocol.data,
        credNetloc username password e.host.data (if e.port ≠ 0 then some e.port else none),
        buildPath e, [], buildQuery e, []⟩) =
      .ok ⟨e.protocol.data,
        credNetloc username password e.host.data (if e.port ≠ 0 then some e.port else none),
        buildPath e, [], buildQuery e, []⟩ ∧
    hostnameOf (credNetloc username password e.host.data
        (if e.port ≠ 0 then some e.port else none)) = some e.host.data ∧
    portOf (credNetloc username password e.host.data
        (if e.port ≠ 0 then some e.port else none)) =
      .ok (if e.port ≠ 0 then some e.port else none) := by
  have hhn : ∀ c ∈ e.host.data, netlocSafeChar c = true :=
    fun c hc => (hostSafeChar_props (hhc c hc)).1
  have hba : '@' ∉ e.host.data := fun hm => (hostSafeChar_props (hhc '@' hm)).2.1 rfl
  have hbb : '[' ∉ e.host.data := fun hm =>
    (netlocSafeChar_props (hhn '[' hm)).2.2.2.1 rfl
  have hbc : ':' ∉ e.host.data := fun hm => (hostSafeChar_props (hhc ':' hm)).2.2.1 rfl
  have hbp : '%' ∉ e.host.data := fun hm => (hostSafeChar_props (hhc '%' hm)).2.2.2 rfl
  have hbu := build_url_parse e (Or.inr hs) hlow (Or.inl hne) hhn hpc hsemi
  have hhost : hostnameOf (buildNetloc e) = some e.host.data := by
    unfold buildNetloc
    by_cases hz : e.port ≠ 0
    · rw [if_pos hz, hostnameOf_hostport e.host.data e.port hne hba hbb hbc hbp, hhlow]
    · rw [if_neg hz, hostnameOf_plain e.host.data hne hba hbb hbc hbp, hhlow]
  have hport : portOf (buildNetloc e) = .ok (if e.port ≠ 0 then some e.port else none) := by
    unfold buildNetloc
    by_cases hz : e.port ≠ 0
    · rw [if_pos hz, if_pos hz, portOf_hostport e.host.data e.port hple hba hbb hbc]
    · rw [if_neg hz, if_neg hz, portOf_plain e.host.data hba hbb hbc]
  have hmain := insert_reparse (build_url e) username password
    ⟨e.protocol.data, buildNetloc e, buildPath e, [], buildQuery e, []⟩
    e.host.data (if e.port ≠ 0 then some e.port else none)
    hbu hhost hport (buildNetloc_ne_nil e (Or.inl hne)) (buildNetloc_safe e hhn)
    hu hpw (buildPath_nosemi e hsemi) rfl
  have hrest : '@' ∉ e.host.data ++ portText (if e.port ≠ 0 then some e.port else none) := by
    intro hm
    rcases List.mem_append.mp hm with hm | hm
    · exact hba hm
    · rcases portText_chars _ '@' hm with he | he
      · exact absurd he (by decide)
      · have h64 : ('@' : Char).toNat = 64 := by decide
        omega
  have hptxt : e.host.data ++ portText (if e.port ≠ 0 then some e.port else none) =
      (if e.port ≠ 0 then e.host.data ++ ':' :: natRepr e.port else e.host.data) := by
    by_cases hz : e.port ≠ 0
    · rw [if_pos hz, if_pos hz,
        show portText (some e.port) = if e.port ≠ 0 then ':' :: natRepr e.port else [] from rfl,
        if_pos hz]
    · rw [if_neg hz, if_neg hz, show portText none = [] from rfl, List.append_nil]
  have hhn2 : hostnameOf (credNetloc username password e.host.data
      (if e.port ≠ 0 then some e.port else none)) = some e.host.data := by
    rw [credNetloc_assoc, hostnameOf_userinfo _ _ hrest, hptxt]
    by_cases hz : e.port ≠ 0
    · rw [if_pos hz, hostnameOf_hostport e.host.data e.port hne hba hbb hbc hbp, hhlow]
    · rw [if_neg hz, hostnameOf_plain e.host.data hne hba hbb hbc hbp, hhlow]
  have hport2 : portOf (credNetloc username password e.host.data
      (if e.port ≠ 0 then some e.port else none)) =
      .ok (if e.port ≠ 0 then some e.port else none) := by
    rw [credNetloc_assoc, portOf_userinfo _ _ hrest, hptxt]
    by_cases hz : e.port ≠ 0
    · rw [if_pos hz, if_pos hz, portOf_hostport e.host.data e.port hple hba hbb hbc]
    · rw [if_neg hz, if_neg hz, portOf_plain e.host.data hba hbb hbc]
  exact ⟨hmain.1, hmain.2, hhn2, hport2⟩

theorem C8_witness :
    insert_credentials (build_url ⟨"rtsp", "cam", 554, "/a/b", []⟩) "u" "p" =
      .ok ⟨urlunparse ⟨"rtsp".data,
        credNetloc "u" "p" "cam".data (some 554),
        buildPath ⟨"rtsp", "cam", 554, "/a/b", []⟩, [],
        buildQuery ⟨"rtsp", "cam", 554, "/a/b", []⟩, []⟩⟩ ∧
    urlparse (urlunparse ⟨"rtsp".data,
        credNetloc "u" "p" "cam".data (some 554),
        buildPath ⟨"rtsp", "cam", 554, "/a/b", []⟩, [],
        buildQuery ⟨"rtsp", "cam", 554, "/a/b", []⟩, []⟩) =
      .ok ⟨"rtsp".data, credNetloc "u" "p" "cam".data (some 554),
        buildPath ⟨"rtsp", "cam", 554, "/a/b", []⟩, [],
        buildQuery ⟨"rtsp", "cam", 554, "/a/b", []⟩, []⟩ ∧
    hostnameOf (credNetloc "u" "p" "cam".data (some 554)) = some "cam".data ∧
    portOf (credNetloc "u" "p" "cam".data (some 554)) = .ok (some 554) :=
  C8_roundtrip ⟨"rtsp", "cam", 554, "/a/b", []⟩ "u" "p" (by decide) (by decide) (by decide)
    (by decide) (by decide) (by decide) (by decide) (by decide) (by decide) (by decide)

/-- C5 counterexample: with an empty host, a zero port and a scheme outside
`uses_netloc`, `build_url` emits no `//` authority marker at all, so the
output is not of the claimed `scheme://authority/path` shape. -/
theorem C5_counterexample :
    build_url ⟨"foo", "", 0, "p", []⟩ = "foo:/p" ∧
    ("foo:/p" : String).data ≠
      "foo".data ++ ':' :: '/' :: '/' ::
        (buildNetloc ⟨"foo", "", 0, "p", []⟩ ++ buildPath ⟨"foo", "", 0, "p", []⟩) :=
  ⟨rfl, by decide⟩

/-- C5 (amended): whenever the authority is nonempty (nonempty host or
nonzero port), `build_url` returns
`scheme:` `//netloc` `path` `?query`, where the path always starts with a
slash (one is prepended when missing), the netloc is `host` alone when the
port is zero/absent and `host:port` otherwise, and the query is empty for an
empty mapping and the urlencoded pairs in input order otherwise. -/
theorem C5_shape (e : Endpoint) (hne : e.host.data ≠ [] ∨ e.port ≠ 0) :
    (build_url e).data =
      (if e.protocol.data = [] then [] else e.protocol.data ++ [':']) ++
        '/' :: '/' :: (buildNetloc e ++ buildPath e) ++
        (if buildQuery e = [] then [] else '?' :: buildQuery e) ∧
    (buildPath e).headD ' ' = '/' ∧
    buildNetloc e =
      (if e.port ≠ 0 then e.host.data ++ ':' :: natRepr e.port else e.host.data) ∧
    buildQuery e = (if e.query_params ≠ [] then
      urlencode (e.query_params.map (fun kv => (kv.1.data, kv.2.data))) else []) := by
  refine ⟨?_, (buildPath_head e).2, rfl, rfl⟩
  have hbu : (build_url e).data =
      urlunparse ⟨e.protocol.data, buildNetloc e, buildPath e, [], buildQuery e, []⟩ := rfl
  have hup : urlunparse ⟨e.protocol.data, buildNetloc e, buildPath e, [], buildQuery e, []⟩ =
      urlunsplit e.protocol.data (buildNetloc e) (buildPath e) (buildQuery e) [] := by
    unfold urlunparse
    simp
  rw [hbu, hup, urlunsplit_shape _ _ _ _ _ (buildNetloc_ne_nil e hne)
    (Or.inr (buildPath_head e).2)]
  simp

theorem C5_witness :
    (build_url ⟨"rtsp", "cam", 554, "p", [("a", "b c")]⟩).data =
      (if ("rtsp" : String).data = [] then [] else "rtsp".data ++ [':']) ++
        '/' :: '/' :: (buildNetloc ⟨"rtsp", "cam", 554, "p", [("a", "b c")]⟩ ++
          buildPath ⟨"rtsp", "cam", 554, "p", [("a", "b c")]⟩) ++
        (if buildQuery ⟨"rtsp", "cam", 554, "p", [("a", "b c")]⟩ = [] then []
         else '?' :: buildQuery ⟨"rtsp", "cam", 554, "p", [("a", "b c")]⟩) ∧
    (buildPath ⟨"rtsp", "cam", 554, "p", [("a", "b c")]⟩).headD ' ' = '/' ∧
    buildNetloc ⟨"rtsp", "cam", 554, "p", [("a", "b c")]⟩ =
      (if (554 : Nat) ≠ 0 then "cam".data ++ ':' :: natRepr 554 else "cam".data) ∧
    buildQuery ⟨"rtsp", "cam", 554, "p", [("a", "b c")]⟩ =
      (if ([("a", "b c")] : List (String × String)) ≠ [] then
        urlencode ([("a", "b c")].map (fun kv => (kv.1.data, kv.2.data))) else []) :=
  C5_shape ⟨"rtsp", "cam", 554, "p", [("a", "b c")]⟩ (Or.inl (by decide))

/-- C6 counterexample: naming can fail for a reason outside the claimed
"fewer path segments or missing starttime/endtime" dichotomy — an unmatched
bracket in the authority makes the parse itself raise `Invalid IPv6 URL`,
although the path has five segments and both times are present. -/
theorem C6_counterexample :
    transform_url "rtsp://[/a/b/c/d?starttime=1&endtime=2" =
      .error (.valueError "Invalid IPv6 URL") ∧
    (splitAll '/' "/a/b/c/d".data).length = 5 ∧
    firstQueryValue "starttime=1&endtime=2".data "starttime".data = some "1".data ∧
    firstQueryValue "starttime=1&endtime=2".data "endtime".data = some "2".data :=
  ⟨rfl, rfl, rfl, rfl⟩

/-- C6 (amended): on every URL whose parse succeeds, `transform_url` fails
with the structure error exactly when the parsed path splits into fewer than
four ``/``-separated parts, fails with the missing-time error exactly when
`starttime` or `endtime` is absent or empty in the parsed query, and
otherwise returns `{track}/{starttime}_{endtime}.mkv` with the track taken
from index 3 of the split path. -/
theorem C6_naming (url : String) (r : ParseResult)
    (hp : urlparse (replaceAmp url.data) = .ok r) :
    ((splitAll '/' r.path).length < 4 →
      transform_url url = .error (.valueError "Invalid URL structure; cannot find track ID.")) ∧
    (¬ (splitAll '/' r.path).length < 4 →
      (((firstQueryValue r.query "starttime".data).getD [] = [] ∨
        (firstQueryValue r.query "endtime".data).getD [] = []) →
        transform_url url = .error (.valueError "Missing starttime or endtime in URL.")) ∧
      (¬ ((firstQueryValue r.query "starttime".data).getD [] = [] ∨
          (firstQueryValue r.query "endtime".data).getD [] = []) →
        transform_url url = .ok ⟨(splitAll '/' r.path).getD 3 [] ++
          '/' :: (firstQueryValue r.query "starttime".data).getD [] ++
          '_' :: (firstQueryValue r.query "endtime".data).getD [] ++ ".mkv".data⟩)) := by
  unfold transform_url
  rw [hp, show (Except.ok r : Except PyErr ParseResult) = pure r from rfl, pure_bind]
  dsimp only
  refine ⟨?_, fun h4 => ⟨?_, ?_⟩⟩
  · intro hlt
    rw [if_pos hlt]
    rfl
  · intro hmiss
    rw [if_neg h4, if_pos hmiss]
    rfl
  · intro hok
    rw [if_neg h4, if_neg hok]
    rfl

theorem C6_witness :
    transform_url "rtsp://h/x/y/TRACK42/z?starttime=100&endtime=200" =
      .ok "TRACK42/100_200.mkv" := by
  have h := (C6_naming "rtsp://h/x/y/TRACK42/z?starttime=100&endtime=200"
    ⟨"rtsp".data, "h".data, "/x/y/TRACK42/z".data, [],
      "starttime=100&endtime=200".data, []⟩ rfl).2
  have h2 := (h (by decide)).2 (by decide)
  exact h2

end StreamRec
